import Mathlib

/-!
Verification of the SAT-based Sudoku solver (q1.py) and Sokoban solver (q2.py).

The Python sources are embedded shallowly: every clause-generating loop is
mirrored by a `List` computation in the same order, variable ids use the same
decimal digit-packing arithmetic, and the SAT oracle is abstracted as a
function returning an optional model.  An assignment is modelled as
`A : Int → Bool` giving the truth value of each (positive) variable id, which
is exactly what the Python membership test `var in model` observes on a
consistent solver model.
-/

/-- All ordered pairs `(l[i], l[j])` with `i < j`, in the order produced by the
Python double loop `for i in range(len(l)): for j in range(i+1, len(l))`. -/
def allPairs {α : Type} : List α → List (α × α)
  | [] => []
  | x :: xs => (xs.map fun y => (x, y)) ++ allPairs xs

/-- Truth of a signed integer literal under assignment `A` (positive literal:
the variable is true; negative literal: the variable is false).  This is what
a consistent SAT-solver model means for each literal. -/
def litTrue (A : Int → Bool) (l : Int) : Bool := if 0 < l then A l else !A (-l)

/-- A clause (disjunction of literals) is satisfied. -/
def clauseSat (A : Int → Bool) (c : List Int) : Bool := c.any (litTrue A)

/-- A CNF (list of clauses) is satisfied. -/
def satCNF (A : Int → Bool) (cnf : List (List Int)) : Bool := cnf.all (clauseSat A)

namespace Q1

/-- Variable id for cell (row, column) holding value num: `100*row+10*column+num`
(q1.py uses this digit packing in every clause). -/
def var (row col num : Int) : Int := 100 * row + 10 * col + num

/-- Python `range(1, n+1)` over 1-based indices. -/
def oneTo (n : Nat) : List Nat := (List.range n).map (· + 1)

/-- Python `range(start, stop, step)` for `step > 0`.  Python raises
`ValueError` when `step = 0`; that case (reached only for `n = 0`) is excluded
by the `1 ≤ n` hypotheses of the theorems below. -/
def rangeStep (start stop step : Nat) : List Nat :=
  (List.range ((stop - start + step - 1) / step)).map (fun k => start + step * k)

/-- Clause family: each row must contain all numbers (q1.py lines 23-25). -/
def rowClauses (n : Nat) : List (List Int) :=
  (oneTo n).flatMap fun (row : Nat) => (oneTo n).map fun (num : Nat) =>
    (oneTo n).map fun (col : Nat) => var row col num

/-- Clause family: each column must contain all numbers (q1.py lines 28-30). -/
def colClauses (n : Nat) : List (List Int) :=
  (oneTo n).flatMap fun (col : Nat) => (oneTo n).map fun (num : Nat) =>
    (oneTo n).map fun (row : Nat) => var row col num

/-- Clause family: each subgrid must contain all numbers (q1.py lines 33-36),
with block step `int(math.sqrt(n))`. -/
def blockClauses (n : Nat) : List (List Int) :=
  (rangeStep 1 (n + 1) (Nat.sqrt n)).flatMap fun (rownums : Nat) =>
    (rangeStep 1 (n + 1) (Nat.sqrt n)).flatMap fun (colnums : Nat) =>
      (oneTo n).map fun (num : Nat) =>
        (List.range (Nat.sqrt n)).flatMap fun (dr : Nat) =>
          (List.range (Nat.sqrt n)).map fun (dc : Nat) =>
            var (rownums + dr) (colnums + dc) num

/-- Clause family: each cell contains at most one number (q1.py lines 39-43). -/
def cellClauses (n : Nat) : List (List Int) :=
  (oneTo n).flatMap fun (row : Nat) => (oneTo n).flatMap fun (col : Nat) =>
    (allPairs (oneTo n)).map fun (nn : Nat × Nat) =>
      [-(var row col nn.1), -(var row col nn.2)]

/-- Grid cell accessor (`grid[row][column]`, 0-based; the theorems assume a
square grid so the defaults are never consulted). -/
def cellVal (grid : List (List Int)) (row col : Nat) : Int :=
  (grid.getD row []).getD col 0

/-- Initial conditions: a unit clause per pre-filled cell (q1.py lines 46-49). -/
def initClauses (grid : List (List Int)) : List (List Int) :=
  (List.range grid.length).flatMap fun (row : Nat) =>
    (List.range grid.length).filterMap fun (col : Nat) =>
      if cellVal grid row col ≠ 0 then
        some [var (row + 1) (col + 1) (cellVal grid row col)]
      else none

/-- The full CNF built by `solve_sudoku`, in the order the Python code appends
the clause families. -/
def cnf1 (grid : List (List Int)) : List (List Int) :=
  rowClauses grid.length ++ colClauses grid.length ++ blockClauses grid.length ++
    cellClauses grid.length ++ initClauses grid

/-- `ans[i][j] = v` on a list-of-lists matrix. -/
def setCell (ans : List (List Int)) (i j : Nat) (v : Int) : List (List Int) :=
  ans.set i ((ans.getD i []).set j v)

/-- Processing of one model value in the answer-building loop of q1.py
(lines 58-64): positive values are digit-decoded and written back when the
decoded digits are in range. -/
def applyValue (n : Nat) (ans : List (List Int)) (value : Int) : List (List Int) :=
  if 0 < value then
    let num := value % 10
    let column := (value / 10) % 10
    let row := value / 100
    if 1 ≤ row ∧ row ≤ (n : Int) ∧ 1 ≤ column ∧ column ≤ (n : Int) ∧
        1 ≤ num ∧ num ≤ (n : Int) then
      setCell ans (row - 1).toNat (column - 1).toNat num
    else ans
  else ans

/-- The answer matrix built from a model (q1.py lines 56-64): an `n × n`
all-zero matrix updated by every positive model value in model order. -/
def extract (n : Nat) (model : List Int) : List (List Int) :=
  model.foldl (applyValue n) (List.replicate n (List.replicate n 0))

/-- `solve_sudoku` with the SAT solver abstracted as an oracle that either
returns a model or reports unsatisfiability (q1.py lines 51-68). -/
def solve_sudoku (grid : List (List Int))
    (oracle : List (List Int) → Option (List Int)) : List (List Int) :=
  match oracle (cnf1 grid) with
  | some model => extract grid.length model
  | none => grid

end Q1

namespace Q2

/-- Move deltas, in the iteration order of the Python dict
`DIRS = {'U': (-1,0), 'D': (1,0), 'L': (0,-1), 'R': (0,1)}`. -/
def DIRS : List (Int × Int) := [(-1, 0), (1, 0), (0, -1), (0, 1)]

/-- `N = len(grid)`. -/
def rowsN (g : List (List Char)) : Nat := g.length

/-- `M = len(grid[0])`. -/
def colsM (g : List (List Char)) : Nat := (g.headD []).length

/-- `grid[i][j]` for the in-range nonnegative indices the scans use. -/
def cellAt (g : List (List Char)) (p : Int × Int) : Char :=
  (g.getD p.1.toNat []).getD p.2.toNat '.'

/-- All grid coordinates in scan order (`for i in range(N): for j in range(M)`). -/
def scanCells (g : List (List Char)) : List (Int × Int) :=
  (List.range (rowsN g)).flatMap fun (i : Nat) =>
    (List.range (colsM g)).map fun (j : Nat) => ((i : Int), (j : Int))

/-- Goal cells, in scan order (`_parse_grid`). -/
def goalsOf (g : List (List Char)) : List (Int × Int) :=
  (scanCells g).filter fun p => cellAt g p == 'G'

/-- Box cells, in scan order (`_parse_grid`). -/
def boxesOf (g : List (List Char)) : List (Int × Int) :=
  (scanCells g).filter fun p => cellAt g p == 'B'

/-- Wall cells, in scan order (`_parse_grid`). -/
def wallsOf (g : List (List Char)) : List (Int × Int) :=
  (scanCells g).filter fun p => cellAt g p == '#'

/-- `player_start`: the last `'P'` cell in scan order, `none` when the grid has
no player (Python leaves the attribute `None`). -/
def player_start (g : List (List Char)) : Option (Int × Int) :=
  (scanCells g).foldl (fun acc p => if cellAt g p == 'P' then some p else acc) none

/-- `num_boxes`. -/
def num_boxes (g : List (List Char)) : Nat := (boxesOf g).length

/-- `var_player(x, y, t) = 1 + 1000*x + 100*y + t`. -/
def var_player (x y : Int) (t : Nat) : Int := 1 + 1000 * x + 100 * y + t

/-- `var_box(b, x, y, t) = 10000*(b+1) + 1000*x + 100*y + t`. -/
def var_box (b : Nat) (x y : Int) (t : Nat) : Int :=
  10000 * ((b : Int) + 1) + 1000 * x + 100 * y + t

/-- Valid (non-wall) positions, in scan order (`encode`, lines 99-103). -/
def valid_positions (g : List (List Char)) : List (Int × Int) :=
  (scanCells g).filter fun p => !((wallsOf g).contains p)

/-- Initial-state unit clauses (encode, lines 107-111). -/
def clausesInit (g : List (List Char)) (p0 : Int × Int) : List (List Int) :=
  [[var_player p0.1 p0.2 0]] ++
    (List.range (num_boxes g)).map fun b =>
      [var_box b ((boxesOf g).getD b (0, 0)).1 ((boxesOf g).getD b (0, 0)).2 0]

/-- Player at-least-one-position clauses (encode, lines 114-115). -/
def clausesPlayerExist (g : List (List Char)) (T : Nat) : List (List Int) :=
  (List.range (T + 1)).map fun t =>
    (valid_positions g).map fun p => var_player p.1 p.2 t

/-- Player at-most-one-position clauses (encode, lines 118-124). -/
def clausesPlayerAMO (g : List (List Char)) (T : Nat) : List (List Int) :=
  (List.range (T + 1)).flatMap fun t =>
    (allPairs (valid_positions g)).map fun pq =>
      [-(var_player pq.1.1 pq.1.2 t), -(var_player pq.2.1 pq.2.2 t)]

/-- Box at-least-one-position clauses (encode, lines 127-129). -/
def clausesBoxExist (g : List (List Char)) (T : Nat) : List (List Int) :=
  (List.range (T + 1)).flatMap fun t =>
    (List.range (num_boxes g)).map fun b =>
      (valid_positions g).map fun p => var_box b p.1 p.2 t

/-- Box at-most-one-position clauses (encode, lines 132-139). -/
def clausesBoxAMO (g : List (List Char)) (T : Nat) : List (List Int) :=
  (List.range (T + 1)).flatMap fun t =>
    (List.range (num_boxes g)).flatMap fun b =>
      (allPairs (valid_positions g)).map fun pq =>
        [-(var_box b pq.1.1 pq.1.2 t), -(var_box b pq.2.1 pq.2.2 t)]

/-- Player/box non-overlap clauses (encode, lines 142-145). -/
def clausesPlayerBoxSep (g : List (List Char)) (T : Nat) : List (List Int) :=
  (List.range (T + 1)).flatMap fun t =>
    (valid_positions g).flatMap fun p =>
      (List.range (num_boxes g)).map fun b =>
        [-(var_player p.1 p.2 t), -(var_box b p.1 p.2 t)]

/-- Box/box non-overlap clauses (encode, lines 148-152). -/
def clausesBoxBoxSep (g : List (List Char)) (T : Nat) : List (List Int) :=
  (List.range (T + 1)).flatMap fun t =>
    (valid_positions g).flatMap fun p =>
      (allPairs (List.range (num_boxes g))).map fun bb =>
        [-(var_box bb.1 p.1 p.2 t), -(var_box bb.2 p.1 p.2 t)]

/-- Player movement clauses: stay or move to an adjacent valid position
(encode, lines 155-164). -/
def clausesMove (g : List (List Char)) (T : Nat) : List (List Int) :=
  (List.range T).flatMap fun t =>
    (valid_positions g).map fun p =>
      [-(var_player p.1 p.2 t), var_player p.1 p.2 (t + 1)] ++
        DIRS.filterMap fun d =>
          if (valid_positions g).contains (p.1 + d.1, p.2 + d.2) then
            some (var_player (p.1 + d.1) (p.2 + d.2) (t + 1))
          else none

/-- Push clauses (encode, lines 168-184). -/
def clausesPush (g : List (List Char)) (T : Nat) : List (List Int) :=
  (List.range T).flatMap fun t =>
    (List.range (num_boxes g)).flatMap fun b =>
      (valid_positions g).flatMap fun p =>
        DIRS.flatMap fun d =>
          if (valid_positions g).contains (p.1 + d.1, p.2 + d.2) &&
              (valid_positions g).contains (p.1 + 2 * d.1, p.2 + 2 * d.2) then
            [[-(var_player p.1 p.2 t), -(var_box b (p.1 + d.1) (p.2 + d.2) t),
                var_box b (p.1 + d.1) (p.2 + d.2) (t + 1),
                var_player (p.1 + d.1) (p.2 + d.2) (t + 1)],
              [-(var_player p.1 p.2 t), -(var_box b (p.1 + d.1) (p.2 + d.2) t),
                var_box b (p.1 + d.1) (p.2 + d.2) (t + 1),
                var_box b (p.1 + 2 * d.1) (p.2 + 2 * d.2) (t + 1)]]
          else []

/-- Box frame clauses: an unpushed box stays (encode, lines 188-198). -/
def clausesStay (g : List (List Char)) (T : Nat) : List (List Int) :=
  (List.range T).flatMap fun t =>
    (List.range (num_boxes g)).flatMap fun b =>
      (valid_positions g).map fun p =>
        [-(var_box b p.1 p.2 t), var_box b p.1 p.2 (t + 1)] ++
          DIRS.filterMap fun d =>
            if (valid_positions g).contains (p.1 - d.1, p.2 - d.2) &&
                (valid_positions g).contains (p.1 + d.1, p.2 + d.2) then
              some (var_player (p.1 - d.1) (p.2 - d.2) t)
            else none

/-- Goal clauses at the final timestep (encode, lines 201-202). -/
def clausesGoal (g : List (List Char)) (T : Nat) : List (List Int) :=
  (List.range (num_boxes g)).map fun b =>
    (goalsOf g).map fun gl => var_box b gl.1 gl.2 T

/-- The CNF built by `encode`, given the parsed player start, in the order the
Python code appends the clause families. -/
def encodeCnf (g : List (List Char)) (T : Nat) (p0 : Int × Int) : List (List Int) :=
  clausesInit g p0 ++ clausesPlayerExist g T ++ clausesPlayerAMO g T ++
    clausesBoxExist g T ++ clausesBoxAMO g T ++ clausesPlayerBoxSep g T ++
    clausesBoxBoxSep g T ++ clausesMove g T ++ clausesPush g T ++
    clausesStay g T ++ clausesGoal g T

/-- `SokobanEncoder(grid, T).encode()`: `none` models the Python `TypeError`
crash on `self.player_start[0]` when the grid has no player cell (the crash
happens before any clause is appended). -/
def encode (g : List (List Char)) (T : Nat) : Option (List (List Int)) :=
  (player_start g).map fun p0 => encodeCnf g T p0

/-- One timestep of the decoder's player-position scan: the first grid cell
(in scan order, walls included) whose player variable is true (decode,
lines 225-234). -/
def findPos (A : Int → Bool) (g : List (List Char)) (t : Nat) : Option (Int × Int) :=
  (scanCells g).find? fun p => A (var_player p.1 p.2 t)

/-- The decoder's `positions` list: one entry per timestep where the scan
found a true player variable (timesteps with no hit are silently skipped). -/
def positionsList (A : Int → Bool) (g : List (List Char)) (T : Nat) : List (Int × Int) :=
  (List.range (T + 1)).filterMap (findPos A g)

/-- The decoder's delta-to-move mapping (decode, lines 237-247): the row
delta is checked first, so a diagonal delta silently yields 'U'/'D', and a
non-adjacent delta appends nothing. -/
def dirChar (p q : Int × Int) : Option Char :=
  if q.1 == p.1 - 1 then some 'U'
  else if q.1 == p.1 + 1 then some 'D'
  else if q.2 == p.2 - 1 then some 'L'
  else if q.2 == p.2 + 1 then some 'R'
  else none

/-- The move list computed from consecutive decoded positions. -/
def movesOf (positions : List (Int × Int)) (T : Nat) : List Char :=
  (List.range T).filterMap fun t =>
    dirChar (positions.getD t (0, 0)) (positions.getD (t + 1) (0, 0))

/-- `decode(model, encoder)`.  `none` models the Python `IndexError` on
`positions[t]` when some timestep found no true player variable (for `T ≥ 1`);
otherwise the move list is returned. -/
def decode (A : Int → Bool) (g : List (List Char)) (T : Nat) : Option (List Char) :=
  let ps := positionsList A g T
  if T = 0 ∨ ps.length = T + 1 then some (movesOf ps T) else none

/-- `solve_sokoban(grid, T)` with the SAT solver abstracted as an oracle.
`some (Sum.inl (-1))` is the unsatisfiable sentinel `-1`; `some (Sum.inr ms)`
is a decoded move list; `none` models a Python crash (no player cell, or the
decoder's IndexError). -/
def solve_sokoban (g : List (List Char)) (T : Nat)
    (oracle : List (List Int) → Option (List Int)) : Option (Int ⊕ List Char) :=
  match encode g T with
  | none => none
  | some cnf =>
    match oracle cnf with
    | none => some (Sum.inl (-1))
    | some model =>
      if model.isEmpty then some (Sum.inl (-1))
      else (decode (fun v => model.contains v) g T).map Sum.inr

/-- Push/stay physics (spec section 4.3): the delta of each move tag. -/
def moveDelta : Char → Int × Int
  | 'U' => (-1, 0)
  | 'D' => (1, 0)
  | 'L' => (0, -1)
  | _ => (0, 1)

/-- A Sokoban world state: player position and the (ordered) box positions. -/
structure SokoState where
  player : Int × Int
  boxes : List (Int × Int)
deriving DecidableEq, Repr

/-- One step of the stated push/stay physics: the player moves one cell in the
move's direction and a box sitting on the target cell is pushed one further
cell in the same direction. -/
def stepState (s : SokoState) (m : Char) : SokoState :=
  let d := moveDelta m
  let p := (s.player.1 + d.1, s.player.2 + d.2)
  { player := p
    boxes := s.boxes.map fun bp => if bp = p then (bp.1 + d.1, bp.2 + d.2) else bp }

/-- Replaying a move sequence from a state. -/
def replay (s : SokoState) (ms : List Char) : SokoState := ms.foldl stepState s

/-- The parsed initial state of a puzzle. -/
def initState (g : List (List Char)) : SokoState :=
  { player := (player_start g).getD (0, 0), boxes := boxesOf g }

/-- The (unique, under the encoder's constraints) decoded player position at
time `t`, as a total function. -/
def playerAtT (A : Int → Bool) (g : List (List Char)) (t : Nat) : Int × Int :=
  (findPos A g t).getD (0, 0)

/-- The (unique, under the encoder's constraints) position of box `b` at time
`t`, as a total function. -/
def boxAtT (A : Int → Bool) (g : List (List Char)) (b t : Nat) : Int × Int :=
  ((valid_positions g).find? fun p => A (var_box b p.1 p.2 t)).getD (0, 0)

end Q2

namespace Q1

/-- The digit decoding used by q1.py lines 60-62 to invert `var`. -/
def varDecode (v : Int) : Int × Int × Int := (v / 100, (v / 10) % 10, v % 10)

end Q1

namespace Q2

/-- Mathematical inverse of `var_player` on the single-digit domain. -/
def playerDecode (v : Int) : Int × Int × Int :=
  ((v - 1) / 1000, ((v - 1) / 100) % 10, (v - 1) % 100)

/-- Mathematical inverse of `var_box` on the single-digit domain. -/
def boxDecode (v : Int) : Int × Int × Int × Int :=
  (v / 10000 - 1, v % 10000 / 1000, v % 10000 / 100 % 10, v % 100)

end Q2

/-- `Nat.sqrt` does not reduce definitionally, so concrete values are
provided as equations. -/
theorem natSqrt_two : Nat.sqrt 2 = 1 := by norm_num

theorem natSqrt_four : Nat.sqrt 4 = 2 := by norm_num

/-- Example grids used in concrete theorems. -/
def pbg : List (List Char) := [['P', 'B', 'G']]

def wallFirstGrid : List (List Char) := [['#', 'P', 'B', 'G']]

def grid22 : List (List Char) := [['P', '.'], ['.', '.']]

/-- C1 (counterexample): the digit-packed allocators are not injective on all
declared bounds.  For a 16×16 grid-constraint puzzle (n = 16 is a perfect
square), the distinct tuples (row 1, col 1, value 16) and (row 1, col 2,
value 6) get the same id, and for a Sokoban grid with 11 columns the distinct
positions (0, 10) and (1, 0) get the same player id at time 0. -/
theorem c1_counterexample :
    Q1.var 1 1 16 = Q1.var 1 2 6 ∧
    ((1 : Int), (1 : Int), (16 : Int)) ≠ ((1 : Int), (2 : Int), (6 : Int)) ∧
    Q2.var_player 0 10 0 = Q2.var_player 1 0 0 ∧
    ((0 : Int), (10 : Int)) ≠ ((1 : Int), (0 : Int)) := by
  refine ⟨by decide, by decide, by decide, by decide⟩

/-- C1 (amended): the allocators are injective and exactly invertible as long
as every packed component stays below its decimal digit budget: for the
grid-constraint puzzle, column and value at most 9; for the pushing puzzle,
coordinates at most 9 and time at most 98 (so that player ids, which are at
most 9999, never collide with box ids, which are at least 10000).  Box index
`b` is unconstrained. -/
theorem c1_amended :
    (∀ r c num : Int, 1 ≤ c ∧ c ≤ 9 ∧ 1 ≤ num ∧ num ≤ 9 →
      Q1.varDecode (Q1.var r c num) = (r, c, num)) ∧
    (∀ x y : Int, ∀ t : Nat, 0 ≤ x ∧ 0 ≤ y ∧ y ≤ 9 ∧ t ≤ 98 →
      Q2.playerDecode (Q2.var_player x y t) = (x, y, (t : Int))) ∧
    (∀ b : Nat, ∀ x y : Int, ∀ t : Nat, 0 ≤ x ∧ x ≤ 9 ∧ 0 ≤ y ∧ y ≤ 9 ∧ t ≤ 98 →
      Q2.boxDecode (Q2.var_box b x y t) = ((b : Int), x, y, (t : Int))) ∧
    (∀ b : Nat, ∀ x y x' y' : Int, ∀ t t' : Nat,
      0 ≤ x ∧ x ≤ 9 ∧ 0 ≤ y ∧ y ≤ 9 ∧ t ≤ 98 ∧ 0 ≤ x' ∧ 0 ≤ y' →
      Q2.var_player x y t ≠ Q2.var_box b x' y' t') := by
  refine ⟨?_, ?_, ?_, ?_⟩
  · intro r c num h
    simp only [Q1.var, Q1.varDecode, Prod.mk.injEq]
    omega
  · intro x y t h
    simp only [Q2.var_player, Q2.playerDecode, Prod.mk.injEq]
    omega
  · intro b x y t h
    simp only [Q2.var_box, Q2.boxDecode, Prod.mk.injEq]
    omega
  · intro b x y x' y' t t' h
    simp only [Q2.var_player, Q2.var_box]
    have hb : (0 : Int) ≤ (b : Int) := Int.natCast_nonneg b
    omega

/-- C1 (witness for the amended statement). -/
theorem c1_amended_witness :
    Q1.varDecode (Q1.var 3 4 5) = (3, 4, 5) ∧
    Q2.playerDecode (Q2.var_player 2 3 7) = (2, 3, 7) ∧
    Q2.boxDecode (Q2.var_box 12 3 4 56) = (12, 3, 4, 56) ∧
    Q2.var_player 2 3 7 ≠ Q2.var_box 12 3 4 56 :=
  ⟨c1_amended.1 3 4 5 (by decide), c1_amended.2.1 2 3 7 (by decide),
    c1_amended.2.2.1 12 3 4 56 (by decide),
    c1_amended.2.2.2 12 2 3 3 4 7 56 (by decide)⟩

/-- Assignment with two true player propositions at time 0: player at (0,0)
and at (0,1), plus player at (0,1) at time 1. -/
def cexA4 : Int → Bool := fun v => v ∈ ([1, 101, 102] : List Int)

/-- The all-false assignment. -/
def zeroA : Int → Bool := fun _ => false

/-- Assignment whose decoded consecutive player positions differ diagonally:
(0,0) at time 0, (1,1) at time 1. -/
def diagA : Int → Bool := fun v => v ∈ ([1, 1102] : List Int)

/-- C4 (counterexample): on an assignment with two true player-position
propositions at timestep 0 (positions (0,0) and (0,1) of the `P B G` grid),
`decode` does not signal any error: it silently uses the first position in
scan order and returns the ordinary move list ['R']. -/
theorem c4_counterexample :
    cexA4 (Q2.var_player 0 0 0) = true ∧ cexA4 (Q2.var_player 0 1 0) = true ∧
    ((0 : Int), (0 : Int)) ≠ ((0 : Int), (1 : Int)) ∧
    Q2.decode cexA4 pbg 1 = some ['R'] := by
  refine ⟨by decide, by decide, by decide, by decide⟩

/-- C4 (amended): `decode` never signals `InconsistentAssignment`.  With
multiple true player positions at a timestep it silently picks the first in
row-major scan order (see the counterexample); with zero true player
positions at some timestep (and T ≥ 1) it crashes with an IndexError
(modelled `none`) instead of reporting a decode error; and a diagonal
(+1,+1) position delta is silently decoded as 'D' because the row delta is
checked first. -/
theorem c4_amended :
    Q2.decode zeroA pbg 1 = none ∧
    diagA (Q2.var_player 0 0 0) = true ∧ diagA (Q2.var_player 1 1 1) = true ∧
    Q2.decode diagA grid22 1 = some ['D'] := by
  refine ⟨by decide, by decide, by decide, by decide⟩

/-- C5 (counterexample): for the 2×2 all-blank grid-constraint input
(n = 2 is not a perfect square of any block size), no ParseError occurs and
solve does not abort before clause generation: the clause set is nonempty,
and solve runs to completion (here with an unsatisfiable-reporting oracle). -/
theorem c5_counterexample :
    Q1.cnf1 [[0, 0], [0, 0]] ≠ [] ∧
    Q1.solve_sudoku [[0, 0], [0, 0]] (fun _ => none) = [[0, 0], [0, 0]] := by
  exact ⟨by decide, rfl⟩

/-- C5 (amended): the code performs no input validation.  For a Sokoban
layout with no player cell, parsing completes normally with `player_start`
unset (`none`), and solve fails with a TypeError crash (modelled `none`) when
`encode` dereferences the missing player position — before any clause is
appended — rather than with a ParseError; for a non-perfect-square dimension
n, `solve_sudoku` generates its clause families anyway, using block step
`int(math.sqrt(n))`. -/
theorem c5_amended :
    Q2.player_start [['.', 'G']] = none ∧
    (∀ oracle, Q2.solve_sokoban [['.', 'G']] 1 oracle = none) ∧
    (Q1.cnf1 [[0, 0], [0, 0]]).length = 20 := by
  refine ⟨by decide, fun oracle => rfl, ?_⟩
  show (Q1.rowClauses 2 ++ Q1.colClauses 2 ++ Q1.blockClauses 2 ++ Q1.cellClauses 2 ++
      Q1.initClauses [[0, 0], [0, 0]]).length = 20
  simp only [Q1.blockClauses, natSqrt_two]
  decide

/-- C6 (confirmed): when the oracle reports the clause set unsatisfiable (or
returns an empty model), `solve_sokoban` returns the sentinel `-1`
(`Sum.inl (-1)`), a value distinct from every decoded move list
(`Sum.inr ms`) — in particular distinct from the empty plan `Sum.inr []`. -/
theorem c6_unsat_sentinel (g : List (List Char)) (T : Nat)
    (oracle : List (List Int) → Option (List Int)) (cnf : List (List Int))
    (henc : Q2.encode g T = some cnf)
    (hor : oracle cnf = none ∨ oracle cnf = some []) :
    Q2.solve_sokoban g T oracle = some (Sum.inl (-1)) ∧
    (∀ ms : List Char,
      (some (Sum.inl (-1)) : Option (Int ⊕ List Char)) ≠ some (Sum.inr ms)) := by
  constructor
  · rcases hor with h | h <;> simp [Q2.solve_sokoban, henc, h]
  · intro ms h
    simp at h

/-- C6 (witness). -/
theorem c6_unsat_sentinel_witness :
    Q2.solve_sokoban pbg 0 (fun _ => none) = some (Sum.inl (-1)) ∧
    (∀ ms : List Char,
      (some (Sum.inl (-1)) : Option (Int ⊕ List Char)) ≠ some (Sum.inr ms)) :=
  c6_unsat_sentinel pbg 0 (fun _ => none) (Q2.encodeCnf pbg 0 (0, 0)) rfl (Or.inl rfl)

/-- C8 (confirmed): when the oracle reports the grid-constraint clause set
unsatisfiable, `solve_sudoku` returns the original input grid itself, so
every cell of the result is identical to the input. -/
theorem c8_unsat_returns_input (grid : List (List Int))
    (oracle : List (List Int) → Option (List Int))
    (hor : oracle (Q1.cnf1 grid) = none) :
    Q1.solve_sudoku grid oracle = grid ∧
    (∀ i j : Nat, Q1.cellVal (Q1.solve_sudoku grid oracle) i j = Q1.cellVal grid i j) := by
  have h : Q1.solve_sudoku grid oracle = grid := by
    unfold Q1.solve_sudoku
    rw [hor]
  exact ⟨h, fun i j => by rw [h]⟩

/-- C8 (witness). -/
theorem c8_unsat_returns_input_witness :
    Q1.solve_sudoku [[1, 0], [0, 0]] (fun _ => none) = [[1, 0], [0, 0]] ∧
    (∀ i j : Nat,
      Q1.cellVal (Q1.solve_sudoku [[1, 0], [0, 0]] (fun _ => none)) i j =
        Q1.cellVal [[1, 0], [0, 0]] i j) :=
  c8_unsat_returns_input [[1, 0], [0, 0]] (fun _ => none) rfl

/-- C10 (confirmed, as a statement about the pure data flow of
`solve_sudoku`): the unsatisfiable path returns the input grid itself
unchanged, and the satisfiable path returns `extract`, a matrix constructed
from scratch out of just the grid dimension and the model — it does not
depend on the input grid's cells, so the input matrix is never written to. -/
theorem c10_no_mutation (grid : List (List Int))
    (oracle : List (List Int) → Option (List Int)) :
    (oracle (Q1.cnf1 grid) = none → Q1.solve_sudoku grid oracle = grid) ∧
    (∀ model, oracle (Q1.cnf1 grid) = some model →
      Q1.solve_sudoku grid oracle = Q1.extract grid.length model ∧
      ∀ grid2 : List (List Int), grid2.length = grid.length →
        Q1.extract grid2.length model = Q1.extract grid.length model) := by
  constructor
  · intro h
    unfold Q1.solve_sudoku
    rw [h]
  · intro model h
    constructor
    · unfold Q1.solve_sudoku
      rw [h]
    · intro grid2 hlen
      rw [hlen]

/-- C10 (witness). -/
theorem c10_no_mutation_witness :
    Q1.solve_sudoku [[1, 0], [0, 0]] (fun _ => none) = [[1, 0], [0, 0]] ∧
    Q1.solve_sudoku [[1, 0], [0, 0]] (fun _ => some [111]) =
      Q1.extract 2 [111] ∧
    Q1.extract ([[2, 0], [0, 0]] : List (List Int)).length [111] =
      Q1.extract ([[1, 0], [0, 0]] : List (List Int)).length [111] :=
  ⟨(c10_no_mutation [[1, 0], [0, 0]] (fun _ => none)).1 rfl,
    ((c10_no_mutation [[1, 0], [0, 0]] (fun _ => some [111])).2 [111] rfl).1,
    ((c10_no_mutation [[1, 0], [0, 0]] (fun _ => some [111])).2 [111] rfl).2
      [[2, 0], [0, 0]] rfl⟩

/-- Satisfaction gives, for every clause of the CNF, a true literal. -/
theorem satCNF_mem {A : Int → Bool} {cnf : List (List Int)} {c : List Int}
    (h : satCNF A cnf = true) (hc : c ∈ cnf) : ∃ l ∈ c, litTrue A l = true := by
  rw [satCNF, List.all_eq_true] at h
  have hcl := h c hc
  rw [clauseSat, List.any_eq_true] at hcl
  exact hcl

theorem litTrue_posv {A : Int → Bool} {v : Int} (hv : 0 < v) : litTrue A v = A v := by
  simp [litTrue, hv]

theorem litTrue_negv {A : Int → Bool} {v : Int} (hv : 0 < v) : litTrue A (-v) = !A v := by
  have h : ¬(0 < -v) := by omega
  simp [litTrue, h]

/-- A true literal is either a true positive variable or a false negated one. -/
theorem litTrue_resolve {A : Int → Bool} {l : Int} (h : litTrue A l = true) :
    (0 < l ∧ A l = true) ∨ (¬0 < l ∧ A (-l) = false) := by
  by_cases h0 : 0 < l
  · exact Or.inl ⟨h0, by rwa [litTrue_posv h0] at h⟩
  · refine Or.inr ⟨h0, ?_⟩
    rw [litTrue, if_neg h0] at h
    simpa using h

/-- A positive unit clause forces its variable true. -/
theorem sat_unit {A : Int → Bool} {cnf : List (List Int)} {v : Int}
    (h : satCNF A cnf = true) (hm : [v] ∈ cnf) (hv : 0 < v) : A v = true := by
  obtain ⟨l, hl, hlt⟩ := satCNF_mem h hm
  simp only [List.mem_singleton] at hl
  subst hl
  rwa [litTrue_posv hv] at hlt

/-- A binary all-negative clause forces one of its variables false (this also
covers the degenerate case `a = b`). -/
theorem sat_neg_pair {A : Int → Bool} {cnf : List (List Int)} {a b : Int}
    (h : satCNF A cnf = true) (hm : [-a, -b] ∈ cnf) (ha : 0 < a) (hb : 0 < b) :
    A a = false ∨ A b = false := by
  obtain ⟨l, hl, hlt⟩ := satCNF_mem h hm
  simp only [List.mem_cons, List.not_mem_nil, or_false] at hl
  rcases hl with rfl | rfl
  · rw [litTrue_negv ha] at hlt
    exact Or.inl (by simpa using hlt)
  · rw [litTrue_negv hb] at hlt
    exact Or.inr (by simpa using hlt)

/-- The honest model of the `P B G`, T = 1 puzzle: player (0,0)→(0,1), box
(0,1)→(0,2). -/
def pbgModelA : Int → Bool := fun v => v ∈ ([1, 10100, 102, 10201] : List Int)

/-- C7 (confirmed): for the 1×3 layout `P B G` with horizon T = 1 the encoded
clause set is satisfiable, every satisfying assignment decodes to exactly
['R'], and hence `solve_sokoban` answers ['R'] for every oracle returning a
satisfying model. -/
theorem c7_pbg_right :
    (Q2.encode pbg 1 = some (Q2.encodeCnf pbg 1 (0, 0)) ∧
      satCNF pbgModelA (Q2.encodeCnf pbg 1 (0, 0)) = true) ∧
    (∀ A : Int → Bool, satCNF A (Q2.encodeCnf pbg 1 (0, 0)) = true →
      Q2.decode A pbg 1 = some ['R']) ∧
    (∀ model : List Int, model ≠ [] →
      satCNF (fun v => model.contains v) (Q2.encodeCnf pbg 1 (0, 0)) = true →
      ∀ oracle : List (List Int) → Option (List Int),
        oracle (Q2.encodeCnf pbg 1 (0, 0)) = some model →
        Q2.solve_sokoban pbg 1 oracle = some (Sum.inr ['R'])) := by
  have hscan : Q2.scanCells pbg = [(0, 0), (0, 1), (0, 2)] := by decide
  have hdec : ∀ A : Int → Bool, satCNF A (Q2.encodeCnf pbg 1 (0, 0)) = true →
      Q2.decode A pbg 1 = some ['R'] := by
    intro A hsat
    have h1 : A 1 = true := sat_unit hsat (by decide) (by decide)
    have h2 : A 10100 = true := sat_unit hsat (by decide) (by decide)
    have h3 : A 10201 = true :=
      sat_unit hsat (show [(10201 : Int)] ∈ _ by decide) (by decide)
    have h4 : A 10101 = false := by
      rcases sat_neg_pair hsat
          (show [-(10101 : Int), -(10201 : Int)] ∈ _ by decide) (by decide) (by decide) with
        h | h
      · exact h
      · rw [h3] at h
        cases h
    have h5 : A 102 = true := by
      obtain ⟨l, hl, hlt⟩ := satCNF_mem hsat
        (show [-(1 : Int), -(10100 : Int), (10101 : Int), (102 : Int)] ∈ _ by decide)
      simp only [List.mem_cons, List.not_mem_nil, or_false] at hl
      rcases hl with rfl | rfl | rfl | rfl
      · rw [litTrue_negv (by decide : (0 : Int) < 1), h1] at hlt
        cases hlt
      · rw [litTrue_negv (by decide : (0 : Int) < 10100), h2] at hlt
        cases hlt
      · rw [litTrue_posv (by decide : (0 : Int) < 10101), h4] at hlt
        cases hlt
      · rwa [litTrue_posv (by decide : (0 : Int) < 102)] at hlt
    have h6 : A 2 = false := by
      rcases sat_neg_pair hsat (show [-(2 : Int), -(102 : Int)] ∈ _ by decide)
          (by decide) (by decide) with h | h
      · exact h
      · rw [h5] at h
        cases h
    have e0 : Q2.findPos A pbg 0 = some (0, 0) := by
      rw [Q2.findPos, hscan]
      refine List.find?_cons_of_pos _ ?_
      show A (Q2.var_player 0 0 0) = true
      rw [show Q2.var_player 0 0 0 = (1 : Int) from by decide]
      exact h1
    have e1 : Q2.findPos A pbg 1 = some (0, 1) := by
      rw [Q2.findPos, hscan]
      rw [List.find?_cons_of_neg, List.find?_cons_of_pos]
      · show A (Q2.var_player 0 1 1) = true
        rw [show Q2.var_player 0 1 1 = (102 : Int) from by decide]
        exact h5
      · show ¬A (Q2.var_player 0 0 1) = true
        rw [show Q2.var_player 0 0 1 = (2 : Int) from by decide, h6]
        simp
    have hposs : Q2.positionsList A pbg 1 = [(0, 0), (0, 1)] := by
      rw [Q2.positionsList, show List.range 2 = [0, 1] from rfl]
      simp [List.filterMap_cons, e0, e1]
    rw [Q2.decode, hposs]
    decide
  refine ⟨⟨by decide, by decide⟩, hdec, ?_⟩
  intro model hne hsat oracle hor
  have hd := hdec (fun v => model.contains v) hsat
  simp only [Q2.solve_sokoban,
    show Q2.encode pbg 1 = some (Q2.encodeCnf pbg 1 (0, 0)) from by decide, hor,
    List.isEmpty_eq_true, hne, if_false, hd, Option.map]

/-- C7 (witness): the honest model satisfies the clause set and decodes to
['R']. -/
theorem c7_pbg_right_witness : Q2.decode pbgModelA pbg 1 = some ['R'] :=
  c7_pbg_right.2.1 pbgModelA (by decide)

/-- Distinct members of a list appear (in one order) in `allPairs`. -/
theorem mem_allPairs {α : Type} (l : List α) (x y : α) (hx : x ∈ l) (hy : y ∈ l)
    (hne : x ≠ y) : (x, y) ∈ allPairs l ∨ (y, x) ∈ allPairs l := by
  induction l with
  | nil => cases hx
  | cons a as ih =>
    simp only [allPairs, List.mem_append, List.mem_map]
    rcases List.mem_cons.mp hx with h1 | h1
    · rcases List.mem_cons.mp hy with h2 | h2
      · exact absurd (h1.trans h2.symm) hne
      · exact Or.inl (Or.inl ⟨y, h2, by rw [h1]⟩)
    · rcases List.mem_cons.mp hy with h2 | h2
      · exact Or.inr (Or.inl ⟨x, h1, by rw [h2]⟩)
      · rcases ih h1 h2 with h | h
        · exact Or.inl (Or.inr h)
        · exact Or.inr (Or.inr h)

theorem satCNF_append {A : Int → Bool} {xs ys : List (List Int)} :
    satCNF A (xs ++ ys) = (satCNF A xs && satCNF A ys) := List.all_append

namespace Q2

/-- The eleven clause families of one `encode` run, each satisfied. -/
theorem sat_families {g : List (List Char)} {T : Nat} {p0 : Int × Int} {A : Int → Bool}
    (hsat : satCNF A (encodeCnf g T p0) = true) :
    satCNF A (clausesInit g p0) = true ∧
    satCNF A (clausesPlayerExist g T) = true ∧
    satCNF A (clausesPlayerAMO g T) = true ∧
    satCNF A (clausesBoxExist g T) = true ∧
    satCNF A (clausesBoxAMO g T) = true ∧
    satCNF A (clausesPlayerBoxSep g T) = true ∧
    satCNF A (clausesBoxBoxSep g T) = true ∧
    satCNF A (clausesMove g T) = true ∧
    satCNF A (clausesPush g T) = true ∧
    satCNF A (clausesStay g T) = true ∧
    satCNF A (clausesGoal g T) = true := by
  rw [encodeCnf] at hsat
  simp only [satCNF_append, Bool.and_eq_true] at hsat
  tauto

/-- Membership in `scanCells` means in-range nonnegative coordinates. -/
theorem mem_scanCells {g : List (List Char)} {p : Int × Int} :
    p ∈ scanCells g ↔
      0 ≤ p.1 ∧ p.1 < (rowsN g : Int) ∧ 0 ≤ p.2 ∧ p.2 < (colsM g : Int) := by
  unfold scanCells
  constructor
  · intro hp
    obtain ⟨i, hi, hp2⟩ := List.mem_flatMap.mp hp
    obtain ⟨j, hj, hpe⟩ := List.mem_map.mp hp2
    rw [List.mem_range] at hi hj
    subst hpe
    dsimp only
    omega
  · rintro ⟨h1, h2, h3, h4⟩
    refine List.mem_flatMap.mpr ⟨p.1.toNat, List.mem_range.mpr (by omega),
      List.mem_map.mpr ⟨p.2.toNat, List.mem_range.mpr (by omega), ?_⟩⟩
    dsimp only
    rw [Int.toNat_of_nonneg h1, Int.toNat_of_nonneg h3]

theorem valid_sub_scan {g : List (List Char)} {p : Int × Int}
    (hp : p ∈ valid_positions g) : p ∈ scanCells g :=
  List.mem_of_mem_filter hp

theorem valid_nonneg {g : List (List Char)} {p : Int × Int}
    (hp : p ∈ valid_positions g) : 0 ≤ p.1 ∧ 0 ≤ p.2 := by
  have h := mem_scanCells.mp (valid_sub_scan hp)
  exact ⟨h.1, h.2.2.1⟩

theorem var_player_pos {g : List (List Char)} {p : Int × Int} (t : Nat)
    (hp : p ∈ valid_positions g) : 0 < var_player p.1 p.2 t := by
  obtain ⟨h1, h2⟩ := valid_nonneg hp
  have ht : (0 : Int) ≤ (t : Int) := Int.natCast_nonneg t
  rw [var_player]
  omega

theorem var_box_pos {g : List (List Char)} {p : Int × Int} (b t : Nat)
    (hp : p ∈ valid_positions g) : 0 < var_box b p.1 p.2 t := by
  obtain ⟨h1, h2⟩ := valid_nonneg hp
  have ht : (0 : Int) ≤ (t : Int) := Int.natCast_nonneg t
  have hb : (0 : Int) ≤ (b : Int) := Int.natCast_nonneg b
  rw [var_box]
  omega

/-- The player existence clause for time `t`. -/
theorem mem_clausesPlayerExist {g : List (List Char)} {T t : Nat} (ht : t ≤ T) :
    ((valid_positions g).map fun p => var_player p.1 p.2 t) ∈ clausesPlayerExist g T := by
  rw [clausesPlayerExist]
  exact List.mem_map.mpr ⟨t, List.mem_range.mpr (by omega), rfl⟩

theorem mem_clausesPlayerAMO {g : List (List Char)} {T t : Nat} {p q : Int × Int}
    (ht : t ≤ T) (hpq : (p, q) ∈ allPairs (valid_positions g)) :
    [-(var_player p.1 p.2 t), -(var_player q.1 q.2 t)] ∈ clausesPlayerAMO g T := by
  rw [clausesPlayerAMO]
  exact List.mem_flatMap.mpr ⟨t, List.mem_range.mpr (by omega),
    List.mem_map.mpr ⟨(p, q), hpq, rfl⟩⟩

theorem mem_clausesBoxExist {g : List (List Char)} {T t b : Nat} (ht : t ≤ T)
    (hb : b < num_boxes g) :
    ((valid_positions g).map fun p => var_box b p.1 p.2 t) ∈ clausesBoxExist g T := by
  rw [clausesBoxExist]
  exact List.mem_flatMap.mpr ⟨t, List.mem_range.mpr (by omega),
    List.mem_map.mpr ⟨b, List.mem_range.mpr hb, rfl⟩⟩

theorem mem_clausesBoxAMO {g : List (List Char)} {T t b : Nat} {p q : Int × Int}
    (ht : t ≤ T) (hb : b < num_boxes g) (hpq : (p, q) ∈ allPairs (valid_positions g)) :
    [-(var_box b p.1 p.2 t), -(var_box b q.1 q.2 t)] ∈ clausesBoxAMO g T := by
  rw [clausesBoxAMO]
  exact List.mem_flatMap.mpr ⟨t, List.mem_range.mpr (by omega),
    List.mem_flatMap.mpr ⟨b, List.mem_range.mpr hb,
      List.mem_map.mpr ⟨(p, q), hpq, rfl⟩⟩⟩

theorem mem_clausesPlayerBoxSep {g : List (List Char)} {T t b : Nat} {p : Int × Int}
    (ht : t ≤ T) (hb : b < num_boxes g) (hp : p ∈ valid_positions g) :
    [-(var_player p.1 p.2 t), -(var_box b p.1 p.2 t)] ∈ clausesPlayerBoxSep g T := by
  rw [clausesPlayerBoxSep]
  exact List.mem_flatMap.mpr ⟨t, List.mem_range.mpr (by omega),
    List.mem_flatMap.mpr ⟨p, hp, List.mem_map.mpr ⟨b, List.mem_range.mpr hb, rfl⟩⟩⟩

theorem mem_clausesBoxBoxSep {g : List (List Char)} {T t : Nat} {b1 b2 : Nat} {p : Int × Int}
    (ht : t ≤ T) (hp : p ∈ valid_positions g)
    (hbb : (b1, b2) ∈ allPairs (List.range (num_boxes g))) :
    [-(var_box b1 p.1 p.2 t), -(var_box b2 p.1 p.2 t)] ∈ clausesBoxBoxSep g T := by
  rw [clausesBoxBoxSep]
  exact List.mem_flatMap.mpr ⟨t, List.mem_range.mpr (by omega),
    List.mem_flatMap.mpr ⟨p, hp, List.mem_map.mpr ⟨(b1, b2), hbb, rfl⟩⟩⟩

/-- Semantic at-least-one for the player. -/
theorem player_exists_sem {g : List (List Char)} {T : Nat} {A : Int → Bool}
    (hf : satCNF A (clausesPlayerExist g T) = true) {t : Nat} (ht : t ≤ T) :
    ∃ p ∈ valid_positions g, A (var_player p.1 p.2 t) = true := by
  obtain ⟨l, hl, hlt⟩ := satCNF_mem hf (mem_clausesPlayerExist ht)
  obtain ⟨p, hp, rfl⟩ := List.mem_map.mp hl
  exact ⟨p, hp, by rwa [litTrue_posv (var_player_pos t hp)] at hlt⟩

/-- Semantic at-most-one for the player (robust to id aliasing: the pairwise
clause refutes two true positions even when their ids collide). -/
theorem player_amo_sem {g : List (List Char)} {T : Nat} {A : Int → Bool}
    (hf : satCNF A (clausesPlayerAMO g T) = true) {t : Nat} {p q : Int × Int}
    (ht : t ≤ T) (hp : p ∈ valid_positions g) (hq : q ∈ valid_positions g) (hne : p ≠ q)
    (hA : A (var_player p.1 p.2 t) = true) : A (var_player q.1 q.2 t) = false := by
  by_contra hcon
  have hq' : A (var_player q.1 q.2 t) = true := by
    cases hqa : A (var_player q.1 q.2 t)
    · exact absurd hqa hcon
    · rfl
  rcases mem_allPairs _ p q hp hq hne with h | h
  · rcases sat_neg_pair hf (mem_clausesPlayerAMO ht h)
        (var_player_pos t hp) (var_player_pos t hq) with h' | h'
    · rw [hA] at h'
      cases h'
    · rw [hq'] at h'
      cases h'
  · rcases sat_neg_pair hf (mem_clausesPlayerAMO ht h)
        (var_player_pos t hq) (var_player_pos t hp) with h' | h'
    · rw [hq'] at h'
      cases h'
    · rw [hA] at h'
      cases h'

/-- Semantic at-least-one for a box. -/
theorem box_exists_sem {g : List (List Char)} {T : Nat} {A : Int → Bool}
    (hf : satCNF A (clausesBoxExist g T) = true) {t b : Nat} (ht : t ≤ T)
    (hb : b < num_boxes g) :
    ∃ p ∈ valid_positions g, A (var_box b p.1 p.2 t) = true := by
  obtain ⟨l, hl, hlt⟩ := satCNF_mem hf (mem_clausesBoxExist ht hb)
  obtain ⟨p, hp, rfl⟩ := List.mem_map.mp hl
  exact ⟨p, hp, by rwa [litTrue_posv (var_box_pos b t hp)] at hlt⟩

/-- Semantic at-most-one for a box. -/
theorem box_amo_sem {g : List (List Char)} {T : Nat} {A : Int → Bool}
    (hf : satCNF A (clausesBoxAMO g T) = true) {t b : Nat} {p q : Int × Int}
    (ht : t ≤ T) (hb : b < num_boxes g) (hp : p ∈ valid_positions g)
    (hq : q ∈ valid_positions g) (hne : p ≠ q)
    (hA : A (var_box b p.1 p.2 t) = true) : A (var_box b q.1 q.2 t) = false := by
  by_contra hcon
  have hq' : A (var_box b q.1 q.2 t) = true := by
    cases hqa : A (var_box b q.1 q.2 t)
    · exact absurd hqa hcon
    · rfl
  rcases mem_allPairs _ p q hp hq hne with h | h
  · rcases sat_neg_pair hf (mem_clausesBoxAMO ht hb h)
        (var_box_pos b t hp) (var_box_pos b t hq) with h' | h'
    · rw [hA] at h'
      cases h'
    · rw [hq'] at h'
      cases h'
  · rcases sat_neg_pair hf (mem_clausesBoxAMO ht hb h)
        (var_box_pos b t hq) (var_box_pos b t hp) with h' | h'
    · rw [hq'] at h'
      cases h'
    · rw [hA] at h'
      cases h'

/-- Semantic player/box separation. -/
theorem player_box_sep_sem {g : List (List Char)} {T : Nat} {A : Int → Bool}
    (hf : satCNF A (clausesPlayerBoxSep g T) = true) {t b : Nat} {p : Int × Int}
    (ht : t ≤ T) (hb : b < num_boxes g) (hp : p ∈ valid_positions g)
    (hA : A (var_player p.1 p.2 t) = true) : A (var_box b p.1 p.2 t) = false := by
  rcases sat_neg_pair hf (mem_clausesPlayerBoxSep ht hb hp)
      (var_player_pos t hp) (var_box_pos b t hp) with h | h
  · rw [hA] at h
    cases h
  · exact h

/-- Semantic box/box separation. -/
theorem box_box_sep_sem {g : List (List Char)} {T : Nat} {A : Int → Bool}
    (hf : satCNF A (clausesBoxBoxSep g T) = true) {t b1 b2 : Nat} {p : Int × Int}
    (ht : t ≤ T) (hb1 : b1 < num_boxes g) (hb2 : b2 < num_boxes g) (hne : b1 ≠ b2)
    (hp : p ∈ valid_positions g)
    (hA : A (var_box b1 p.1 p.2 t) = true) : A (var_box b2 p.1 p.2 t) = false := by
  by_contra hcon
  have hq' : A (var_box b2 p.1 p.2 t) = true := by
    cases hqa : A (var_box b2 p.1 p.2 t)
    · exact absurd hqa hcon
    · rfl
  rcases mem_allPairs (List.range (num_boxes g)) b1 b2
      (List.mem_range.mpr hb1) (List.mem_range.mpr hb2) hne with h | h
  · rcases sat_neg_pair hf (mem_clausesBoxBoxSep ht hp h)
        (var_box_pos b1 t hp) (var_box_pos b2 t hp) with h' | h'
    · rw [hA] at h'
      cases h'
    · rw [hq'] at h'
      cases h'
  · rcases sat_neg_pair hf (mem_clausesBoxBoxSep ht hp h)
        (var_box_pos b2 t hp) (var_box_pos b1 t hp) with h' | h'
    · rw [hq'] at h'
      cases h'
    · rw [hA] at h'
      cases h'

end Q2

/-- C3 (confirmed): every assignment satisfying an `encode` clause set has, at
every timestep `t ≤ T`: exactly one valid position holding the player, exactly
one valid position holding each box, no two distinct boxes sharing a position,
and the player sharing no position with any box.  (The pairwise clauses make
this robust even where digit-packed ids alias.) -/
theorem c3_model_invariants (g : List (List Char)) (T : Nat) (cnf : List (List Int))
    (A : Int → Bool) (henc : Q2.encode g T = some cnf) (hsat : satCNF A cnf = true) :
    ∀ t : Nat, t ≤ T →
      (∃ p ∈ Q2.valid_positions g, A (Q2.var_player p.1 p.2 t) = true ∧
        ∀ q ∈ Q2.valid_positions g, A (Q2.var_player q.1 q.2 t) = true → q = p) ∧
      (∀ b : Nat, b < Q2.num_boxes g →
        ∃ p ∈ Q2.valid_positions g, A (Q2.var_box b p.1 p.2 t) = true ∧
          ∀ q ∈ Q2.valid_positions g, A (Q2.var_box b q.1 q.2 t) = true → q = p) ∧
      (∀ b1 b2 : Nat, b1 < Q2.num_boxes g → b2 < Q2.num_boxes g → b1 ≠ b2 →
        ∀ p ∈ Q2.valid_positions g,
          ¬(A (Q2.var_box b1 p.1 p.2 t) = true ∧ A (Q2.var_box b2 p.1 p.2 t) = true)) ∧
      (∀ b : Nat, b < Q2.num_boxes g → ∀ p ∈ Q2.valid_positions g,
        ¬(A (Q2.var_player p.1 p.2 t) = true ∧ A (Q2.var_box b p.1 p.2 t) = true)) := by
  rw [Q2.encode] at henc
  have hcnf : ∃ p0, Q2.player_start g = some p0 ∧ cnf = Q2.encodeCnf g T p0 := by
    cases hps : Q2.player_start g with
    | none => rw [hps] at henc; cases henc
    | some p0 =>
      rw [hps] at henc
      injection henc with h
      exact ⟨p0, rfl, h.symm⟩
  obtain ⟨p0, hps, rfl⟩ := hcnf
  obtain ⟨_, hfpe, hfpa, hfbe, hfba, hfpb, hfbb, _⟩ := Q2.sat_families hsat
  intro t ht
  refine ⟨?_, ?_, ?_, ?_⟩
  · obtain ⟨p, hp, hA⟩ := Q2.player_exists_sem hfpe ht
    refine ⟨p, hp, hA, ?_⟩
    intro q hq hAq
    by_contra hne
    have := Q2.player_amo_sem hfpa ht hp hq (fun h => hne (h ▸ rfl)) hA
    rw [hAq] at this
    cases this
  · intro b hb
    obtain ⟨p, hp, hA⟩ := Q2.box_exists_sem hfbe ht hb
    refine ⟨p, hp, hA, ?_⟩
    intro q hq hAq
    by_contra hne
    have := Q2.box_amo_sem hfba ht hb hp hq (fun h => hne (h ▸ rfl)) hA
    rw [hAq] at this
    cases this
  · intro b1 b2 hb1 hb2 hne p hp ⟨h1, h2⟩
    have := Q2.box_box_sep_sem hfbb ht hb1 hb2 hne hp h1
    rw [h2] at this
    cases this
  · intro b hb p hp ⟨h1, h2⟩
    have := Q2.player_box_sep_sem hfpb ht hb hp h1
    rw [h2] at this
    cases this

/-- C3 (witness): the invariants at t = 0 of the honest `P B G` model. -/
theorem c3_model_invariants_witness :
    ∃ p ∈ Q2.valid_positions pbg, pbgModelA (Q2.var_player p.1 p.2 0) = true ∧
      ∀ q ∈ Q2.valid_positions pbg, pbgModelA (Q2.var_player q.1 q.2 0) = true → q = p :=
  (c3_model_invariants pbg 1 (Q2.encodeCnf pbg 1 (0, 0)) pbgModelA (by decide)
    (by decide) 0 (by decide)).1

namespace Q2

/-- The variable ids the encoder allocates in one run: player and box ids at
valid positions for timesteps up to `T`. -/
def allocatedIds (g : List (List Char)) (T : Nat) : List Int :=
  ((List.range (T + 1)).flatMap fun (t : Nat) =>
    (valid_positions g).map fun p => var_player p.1 p.2 t) ++
  ((List.range (T + 1)).flatMap fun (t : Nat) =>
    (List.range (num_boxes g)).flatMap fun (b : Nat) =>
      (valid_positions g).map fun p => var_box b p.1 p.2 t)

/-- The assignment sets only encoder-allocated variables true (an assignment
that the oracle could extend arbitrarily on unconstrained ids need not
satisfy this; see the C2 counterexample). -/
def OnlyAllocated (A : Int → Bool) (g : List (List Char)) (T : Nat) : Prop :=
  ∀ v : Int, A v = true → v ∈ allocatedIds g T

/-- The decoded move prefix up to timestep `k`. -/
def movesUpTo (A : Int → Bool) (g : List (List Char)) (k : Nat) : List Char :=
  (List.range k).filterMap fun t =>
    dirChar (playerAtT A g t) (playerAtT A g (t + 1))

/-- Characterisation of the parse fold: a returned player position is a 'P'
cell of the grid. -/
theorem foldl_player_aux (g : List (List Char)) (l : List (Int × Int))
    (acc : Option (Int × Int)) (p : Int × Int)
    (h : l.foldl (fun acc q => if cellAt g q == 'P' then some q else acc) acc = some p) :
    acc = some p ∨ (p ∈ l ∧ cellAt g p = 'P') := by
  induction l generalizing acc with
  | nil => exact Or.inl h
  | cons a as ih =>
    rw [List.foldl_cons] at h
    rcases ih _ h with h2 | h2
    · by_cases hc : cellAt g a == 'P'
      · rw [if_pos hc] at h2
        injection h2 with h3
        subst h3
        exact Or.inr ⟨List.mem_cons_self a as, by simpa using hc⟩
      · rw [if_neg hc] at h2
        exact Or.inl h2
    · exact Or.inr ⟨List.mem_cons_of_mem a h2.1, h2.2⟩

theorem player_start_spec {g : List (List Char)} {p0 : Int × Int}
    (h : player_start g = some p0) : p0 ∈ scanCells g ∧ cellAt g p0 = 'P' := by
  rcases foldl_player_aux g (scanCells g) none p0 h with h2 | h2
  · cases h2
  · exact h2

theorem not_wall_of_cell {g : List (List Char)} {p : Int × Int} {c : Char}
    (hp : p ∈ scanCells g) (hc : cellAt g p = c) (hne : c ≠ '#') :
    p ∈ valid_positions g := by
  rw [valid_positions, List.mem_filter]
  refine ⟨hp, ?_⟩
  rw [Bool.not_eq_true', Bool.eq_false_iff]
  intro hcon
  have hw : p ∈ wallsOf g := by simpa using hcon
  rw [wallsOf, List.mem_filter] at hw
  have := hw.2
  rw [beq_iff_eq] at this
  rw [hc] at this
  exact hne this

theorem player_start_valid {g : List (List Char)} {p0 : Int × Int}
    (h : player_start g = some p0) : p0 ∈ valid_positions g := by
  obtain ⟨h1, h2⟩ := player_start_spec h
  exact not_wall_of_cell h1 h2 (by decide)

theorem boxesOf_valid {g : List (List Char)} {p : Int × Int} (h : p ∈ boxesOf g) :
    p ∈ valid_positions g := by
  rw [boxesOf, List.mem_filter] at h
  have hc : cellAt g p = 'B' := by
    have := h.2
    rwa [beq_iff_eq] at this
  exact not_wall_of_cell h.1 hc (by decide)

theorem goalsOf_valid {g : List (List Char)} {p : Int × Int} (h : p ∈ goalsOf g) :
    p ∈ valid_positions g := by
  rw [goalsOf, List.mem_filter] at h
  have hc : cellAt g p = 'G' := by
    have := h.2
    rwa [beq_iff_eq] at this
  exact not_wall_of_cell h.1 hc (by decide)

/-- The player's initial unit clause. -/
theorem mem_clausesInit_player {g : List (List Char)} {p0 : Int × Int} :
    [var_player p0.1 p0.2 0] ∈ clausesInit g p0 := by
  rw [clausesInit]
  exact List.mem_append.mpr (Or.inl (List.mem_singleton.mpr rfl))

/-- A box's initial unit clause. -/
theorem mem_clausesInit_box {g : List (List Char)} {p0 : Int × Int} {b : Nat}
    (hb : b < num_boxes g) :
    [var_box b ((boxesOf g).getD b (0, 0)).1 ((boxesOf g).getD b (0, 0)).2 0] ∈
      clausesInit g p0 := by
  rw [clausesInit]
  exact List.mem_append.mpr (Or.inr (List.mem_map.mpr ⟨b, List.mem_range.mpr hb, rfl⟩))

/-- The player movement clause for a valid position and timestep. -/
theorem mem_clausesMove {g : List (List Char)} {T t : Nat} {p : Int × Int}
    (ht : t < T) (hp : p ∈ valid_positions g) :
    ([-(var_player p.1 p.2 t), var_player p.1 p.2 (t + 1)] ++
      DIRS.filterMap fun d =>
        if (valid_positions g).contains (p.1 + d.1, p.2 + d.2) then
          some (var_player (p.1 + d.1) (p.2 + d.2) (t + 1))
        else none) ∈ clausesMove g T := by
  rw [clausesMove]
  exact List.mem_flatMap.mpr ⟨t, List.mem_range.mpr ht, List.mem_map.mpr ⟨p, hp, rfl⟩⟩

/-- The two push clauses for a pushable configuration. -/
theorem mem_clausesPush {g : List (List Char)} {T t b : Nat} {p d : Int × Int}
    (ht : t < T) (hb : b < num_boxes g) (hp : p ∈ valid_positions g) (hd : d ∈ DIRS)
    (hq : (p.1 + d.1, p.2 + d.2) ∈ valid_positions g)
    (hr : (p.1 + 2 * d.1, p.2 + 2 * d.2) ∈ valid_positions g) :
    [-(var_player p.1 p.2 t), -(var_box b (p.1 + d.1) (p.2 + d.2) t),
        var_box b (p.1 + d.1) (p.2 + d.2) (t + 1),
        var_player (p.1 + d.1) (p.2 + d.2) (t + 1)] ∈ clausesPush g T ∧
    [-(var_player p.1 p.2 t), -(var_box b (p.1 + d.1) (p.2 + d.2) t),
        var_box b (p.1 + d.1) (p.2 + d.2) (t + 1),
        var_box b (p.1 + 2 * d.1) (p.2 + 2 * d.2) (t + 1)] ∈ clausesPush g T := by
  have hcq : (valid_positions g).contains (p.1 + d.1, p.2 + d.2) = true := by
    simpa using hq
  have hcr : (valid_positions g).contains (p.1 + 2 * d.1, p.2 + 2 * d.2) = true := by
    simpa using hr
  constructor <;>
  · rw [clausesPush]
    refine List.mem_flatMap.mpr ⟨t, List.mem_range.mpr ht,
      List.mem_flatMap.mpr ⟨b, List.mem_range.mpr hb,
        List.mem_flatMap.mpr ⟨p, hp, List.mem_flatMap.mpr ⟨d, hd, ?_⟩⟩⟩⟩
    rw [hcq, hcr]
    simp

/-- The stay (frame) clause for a box, position and timestep. -/
theorem mem_clausesStay {g : List (List Char)} {T t b : Nat} {p : Int × Int}
    (ht : t < T) (hb : b < num_boxes g) (hp : p ∈ valid_positions g) :
    ([-(var_box b p.1 p.2 t), var_box b p.1 p.2 (t + 1)] ++
      DIRS.filterMap fun d =>
        if (valid_positions g).contains (p.1 - d.1, p.2 - d.2) &&
            (valid_positions g).contains (p.1 + d.1, p.2 + d.2) then
          some (var_player (p.1 - d.1) (p.2 - d.2) t)
        else none) ∈ clausesStay g T := by
  rw [clausesStay]
  exact List.mem_flatMap.mpr ⟨t, List.mem_range.mpr ht,
    List.mem_flatMap.mpr ⟨b, List.mem_range.mpr hb, List.mem_map.mpr ⟨p, hp, rfl⟩⟩⟩

/-- The goal clause of a box. -/
theorem mem_clausesGoal {g : List (List Char)} {T b : Nat} (hb : b < num_boxes g) :
    ((goalsOf g).map fun gl => var_box b gl.1 gl.2 T) ∈ clausesGoal g T := by
  rw [clausesGoal]
  exact List.mem_map.mpr ⟨b, List.mem_range.mpr hb, rfl⟩

end Q2

/-- `find?` returns the unique element satisfying the predicate. -/
theorem find?_eq_of_unique {α : Type} {p : α → Bool} {l : List α} {x : α}
    (hx : x ∈ l) (hpx : p x = true) (hu : ∀ y ∈ l, p y = true → y = x) :
    l.find? p = some x := by
  have h1 : (l.find? p).isSome := by
    rw [List.find?_isSome]
    exact ⟨x, hx, hpx⟩
  rcases Option.isSome_iff_exists.mp h1 with ⟨y, hy⟩
  rw [hy, hu y (List.mem_of_find?_eq_some hy) (List.find?_some hy)]

namespace Q2

/-- Exactly-one valid player position under satisfaction. -/
theorem player_eo {g : List (List Char)} {T : Nat} {A : Int → Bool}
    (hfpe : satCNF A (clausesPlayerExist g T) = true)
    (hfpa : satCNF A (clausesPlayerAMO g T) = true) {t : Nat} (ht : t ≤ T) :
    ∃ p ∈ valid_positions g, A (var_player p.1 p.2 t) = true ∧
      ∀ q ∈ valid_positions g, A (var_player q.1 q.2 t) = true → q = p := by
  obtain ⟨p, hp, hA⟩ := player_exists_sem hfpe ht
  refine ⟨p, hp, hA, ?_⟩
  intro q hq hAq
  by_contra hne
  have := player_amo_sem hfpa ht hp hq (fun h => hne (h ▸ rfl)) hA
  rw [hAq] at this
  cases this

/-- Exactly-one valid position for each box under satisfaction. -/
theorem box_eo {g : List (List Char)} {T : Nat} {A : Int → Bool}
    (hfbe : satCNF A (clausesBoxExist g T) = true)
    (hfba : satCNF A (clausesBoxAMO g T) = true) {t b : Nat} (ht : t ≤ T)
    (hb : b < num_boxes g) :
    ∃ p ∈ valid_positions g, A (var_box b p.1 p.2 t) = true ∧
      ∀ q ∈ valid_positions g, A (var_box b q.1 q.2 t) = true → q = p := by
  obtain ⟨p, hp, hA⟩ := box_exists_sem hfbe ht hb
  refine ⟨p, hp, hA, ?_⟩
  intro q hq hAq
  by_contra hne
  have := box_amo_sem hfba ht hb hp hq (fun h => hne (h ▸ rfl)) hA
  rw [hAq] at this
  cases this

/-- Decomposition of allocated-id membership. -/
theorem mem_allocatedIds {g : List (List Char)} {T : Nat} {v : Int}
    (h : v ∈ allocatedIds g T) :
    (∃ t ≤ T, ∃ p ∈ valid_positions g, v = var_player p.1 p.2 t) ∨
    (∃ t ≤ T, ∃ b < num_boxes g, ∃ p ∈ valid_positions g, v = var_box b p.1 p.2 t) := by
  rw [allocatedIds, List.mem_append] at h
  rcases h with h | h
  · obtain ⟨t, ht, h2⟩ := List.mem_flatMap.mp h
    obtain ⟨p, hp, he⟩ := List.mem_map.mp h2
    exact Or.inl ⟨t, by rw [List.mem_range] at ht; omega, p, hp, he.symm⟩
  · obtain ⟨t, ht, h2⟩ := List.mem_flatMap.mp h
    obtain ⟨b, hb, h3⟩ := List.mem_flatMap.mp h2
    obtain ⟨p, hp, he⟩ := List.mem_map.mp h3
    exact Or.inr ⟨t, by rw [List.mem_range] at ht; omega, b, by rwa [List.mem_range] at hb,
      p, hp, he.symm⟩

/-- Within the single-digit bounds, a true player variable at a scanned cell
can only be the allocated variable of a valid cell at the same time. -/
theorem scan_true_valid {g : List (List Char)} {T : Nat} {A : Int → Bool}
    (hN : rowsN g ≤ 10) (hM : colsM g ≤ 10) (hT : T ≤ 98)
    (honly : OnlyAllocated A g T) {q : Int × Int} (hq : q ∈ scanCells g) {t : Nat}
    (ht : t ≤ T) (hA : A (var_player q.1 q.2 t) = true) : q ∈ valid_positions g := by
  have hqb := mem_scanCells.mp hq
  rcases mem_allocatedIds (honly _ hA) with ⟨t', ht', p, hp, he⟩ | ⟨t', ht', b, hb, p, hp, he⟩
  · have hpb := mem_scanCells.mp (valid_sub_scan hp)
    rw [var_player, var_player] at he
    have hqp : q = p := by
      have h1 : q.1 = p.1 ∧ q.2 = p.2 := by omega
      exact Prod.ext h1.1 h1.2
    rwa [hqp]
  · exfalso
    have hpb := mem_scanCells.mp (valid_sub_scan hp)
    rw [var_player, var_box] at he
    have hbn : (0 : Int) ≤ (b : Int) := Int.natCast_nonneg b
    omega

/-- Under the digit bounds and an allocated-only assignment, the decoder's
scan finds exactly the unique valid player position at each timestep. -/
theorem findPos_spec {g : List (List Char)} {T : Nat} {A : Int → Bool}
    (hN : rowsN g ≤ 10) (hM : colsM g ≤ 10) (hT : T ≤ 98)
    (honly : OnlyAllocated A g T)
    (hfpe : satCNF A (clausesPlayerExist g T) = true)
    (hfpa : satCNF A (clausesPlayerAMO g T) = true) {t : Nat} (ht : t ≤ T) :
    findPos A g t = some (playerAtT A g t) ∧ playerAtT A g t ∈ valid_positions g ∧
      A (var_player (playerAtT A g t).1 (playerAtT A g t).2 t) = true ∧
      ∀ q ∈ valid_positions g, A (var_player q.1 q.2 t) = true → q = playerAtT A g t := by
  obtain ⟨p, hp, hA, huniq⟩ := player_eo hfpe hfpa ht
  have hfind : findPos A g t = some p := by
    rw [findPos]
    refine find?_eq_of_unique (valid_sub_scan hp) hA ?_
    intro y hy hAy
    exact huniq y (scan_true_valid hN hM hT honly hy ht hAy) hAy
  have hPat : playerAtT A g t = p := by
    rw [playerAtT, hfind]
    rfl
  rw [hPat, hfind]
  exact ⟨rfl, hp, hA, huniq⟩

/-- The unique position of box `b` at time `t` (no digit bounds needed: the
box scan in the trajectory abstraction ranges over valid positions only). -/
theorem boxAt_spec {g : List (List Char)} {T : Nat} {A : Int → Bool}
    (hfbe : satCNF A (clausesBoxExist g T) = true)
    (hfba : satCNF A (clausesBoxAMO g T) = true) {t b : Nat} (ht : t ≤ T)
    (hb : b < num_boxes g) :
    boxAtT A g b t ∈ valid_positions g ∧
      A (var_box b (boxAtT A g b t).1 (boxAtT A g b t).2 t) = true ∧
      ∀ q ∈ valid_positions g, A (var_box b q.1 q.2 t) = true → q = boxAtT A g b t := by
  obtain ⟨p, hp, hA, huniq⟩ := box_eo hfbe hfba ht hb
  have hfind : ((valid_positions g).find? fun q => A (var_box b q.1 q.2 t)) = some p :=
    find?_eq_of_unique hp hA huniq
  have hBat : boxAtT A g b t = p := by
    rw [boxAtT, hfind]
    rfl
  rw [hBat]
  exact ⟨hp, hA, huniq⟩

/-- From the movement clause: the player stays or moves to an adjacent valid
position. -/
theorem player_step {g : List (List Char)} {T : Nat} {A : Int → Bool}
    (hfmv : satCNF A (clausesMove g T) = true) {t : Nat} (htT : t < T)
    {p p' : Int × Int} (hp : p ∈ valid_positions g)
    (hA : A (var_player p.1 p.2 t) = true)
    (huniq' : ∀ q ∈ valid_positions g, A (var_player q.1 q.2 (t + 1)) = true → q = p') :
    p' = p ∨ ∃ d ∈ DIRS, p' = (p.1 + d.1, p.2 + d.2) ∧ p' ∈ valid_positions g := by
  obtain ⟨l, hl, hlt⟩ := satCNF_mem hfmv (mem_clausesMove htT hp)
  rw [List.mem_append] at hl
  rcases hl with hl | hl
  · rw [List.mem_cons, List.mem_singleton] at hl
    rcases hl with rfl | rfl
    · rw [litTrue_negv (var_player_pos t hp), hA] at hlt
      cases hlt
    · rw [litTrue_posv (var_player_pos (t + 1) hp)] at hlt
      exact Or.inl (huniq' p hp hlt).symm
  · obtain ⟨d, hd, hde⟩ := List.mem_filterMap.mp hl
    by_cases hc : (valid_positions g).contains (p.1 + d.1, p.2 + d.2) = true
    · rw [if_pos hc] at hde
      injection hde with hde
      subst hde
      have hdv : (p.1 + d.1, p.2 + d.2) ∈ valid_positions g := by simpa using hc
      rw [litTrue_posv (var_player_pos (t + 1) hdv)] at hlt
      have := huniq' _ hdv hlt
      exact Or.inr ⟨d, hd, this.symm, this ▸ hdv⟩
    · rw [if_neg hc] at hde
      cases hde

end Q2

namespace Q2

/-- Push-clause membership stated through the box cell `q` and the beyond
cell `r`. -/
theorem mem_clausesPush2 {g : List (List Char)} {T t b : Nat} {p d q r : Int × Int}
    (ht : t < T) (hb : b < num_boxes g) (hp : p ∈ valid_positions g) (hd : d ∈ DIRS)
    (hqe : q = (p.1 + d.1, p.2 + d.2)) (hre : r = (p.1 + 2 * d.1, p.2 + 2 * d.2))
    (hq : q ∈ valid_positions g) (hr : r ∈ valid_positions g) :
    [-(var_player p.1 p.2 t), -(var_box b q.1 q.2 t),
        var_box b q.1 q.2 (t + 1), var_player q.1 q.2 (t + 1)] ∈ clausesPush g T ∧
    [-(var_player p.1 p.2 t), -(var_box b q.1 q.2 t),
        var_box b q.1 q.2 (t + 1), var_box b r.1 r.2 (t + 1)] ∈ clausesPush g T := by
  subst hqe
  subst hre
  dsimp only
  exact mem_clausesPush ht hb hp hd hq hr

/-- A box not entered by the player keeps its position for one step. -/
theorem box_stay {g : List (List Char)} {T : Nat} {A : Int → Bool}
    (hfstay : satCNF A (clausesStay g T) = true)
    (hfpush : satCNF A (clausesPush g T) = true) {t : Nat} (htT : t < T)
    {b : Nat} (hb : b < num_boxes g)
    {q : Int × Int} (hq : q ∈ valid_positions g) (hAq : A (var_box b q.1 q.2 t) = true)
    {p : Int × Int}
    (huniq : ∀ z ∈ valid_positions g, A (var_player z.1 z.2 t) = true → z = p)
    {p' : Int × Int}
    (huniq' : ∀ z ∈ valid_positions g, A (var_player z.1 z.2 (t + 1)) = true → z = p')
    (hne : p' ≠ q) :
    A (var_box b q.1 q.2 (t + 1)) = true := by
  obtain ⟨l, hl, hlt⟩ := satCNF_mem hfstay (mem_clausesStay htT hb hq)
  rw [List.mem_append] at hl
  rcases hl with hl | hl
  · rw [List.mem_cons, List.mem_singleton] at hl
    rcases hl with rfl | rfl
    · rw [litTrue_negv (var_box_pos b t hq), hAq] at hlt
      cases hlt
    · rwa [litTrue_posv (var_box_pos b (t + 1) hq)] at hlt
  · obtain ⟨d, hd, hde⟩ := List.mem_filterMap.mp hl
    by_cases hc : ((valid_positions g).contains (q.1 - d.1, q.2 - d.2) &&
        (valid_positions g).contains (q.1 + d.1, q.2 + d.2)) = true
    · rw [if_pos hc] at hde
      injection hde with hde
      subst hde
      rw [Bool.and_eq_true] at hc
      have hqm : (q.1 - d.1, q.2 - d.2) ∈ valid_positions g := by simpa using hc.1
      have hqp2 : (q.1 + d.1, q.2 + d.2) ∈ valid_positions g := by simpa using hc.2
      rw [litTrue_posv (var_player_pos t hqm)] at hlt
      have hpeq : (q.1 - d.1, q.2 - d.2) = p := huniq _ hqm hlt
      have hqe : q = ((q.1 - d.1, q.2 - d.2).1 + d.1, (q.1 - d.1, q.2 - d.2).2 + d.2) := by
        refine Prod.ext ?_ ?_ <;> dsimp only <;> omega
      have hre : (q.1 + d.1, q.2 + d.2) =
          ((q.1 - d.1, q.2 - d.2).1 + 2 * d.1, (q.1 - d.1, q.2 - d.2).2 + 2 * d.2) := by
        refine Prod.ext ?_ ?_ <;> dsimp only <;> omega
      obtain ⟨hc1, _⟩ := mem_clausesPush2 htT hb hqm hd hqe hre hq hqp2
      obtain ⟨l', hl', hlt'⟩ := satCNF_mem hfpush hc1
      rw [List.mem_cons, List.mem_cons, List.mem_cons, List.mem_singleton] at hl'
      rcases hl' with rfl | rfl | rfl | rfl
      · rw [litTrue_negv (var_player_pos t hqm), hlt] at hlt'
        cases hlt'
      · rw [litTrue_negv (var_box_pos b t hq), hAq] at hlt'
        cases hlt'
      · rwa [litTrue_posv (var_box_pos b (t + 1) hq)] at hlt'
      · rw [litTrue_posv (var_player_pos (t + 1) hq)] at hlt'
        exact absurd (huniq' q hq hlt') fun h => hne (h ▸ rfl)
    · rw [if_neg hc] at hde
      cases hde

/-- A box entered by the player is pushed one further cell, and that cell is
valid. -/
theorem box_push {g : List (List Char)} {T : Nat} {A : Int → Bool}
    (hfpush : satCNF A (clausesPush g T) = true)
    (hfstay : satCNF A (clausesStay g T) = true)
    (hfpbs : satCNF A (clausesPlayerBoxSep g T) = true) {t : Nat} (htT : t < T)
    {b : Nat} (hb : b < num_boxes g)
    {q : Int × Int} (hq : q ∈ valid_positions g) (hAq : A (var_box b q.1 q.2 t) = true)
    {p : Int × Int} (hp : p ∈ valid_positions g) (hAp : A (var_player p.1 p.2 t) = true)
    (huniq : ∀ z ∈ valid_positions g, A (var_player z.1 z.2 t) = true → z = p)
    {d : Int × Int} (hd : d ∈ DIRS) (hqd : q = (p.1 + d.1, p.2 + d.2))
    (hAq' : A (var_player q.1 q.2 (t + 1)) = true) :
    (q.1 + d.1, q.2 + d.2) ∈ valid_positions g ∧
      A (var_box b (q.1 + d.1) (q.2 + d.2) (t + 1)) = true := by
  have ht1 : t + 1 ≤ T := by omega
  have hsep : A (var_box b q.1 q.2 (t + 1)) = false :=
    player_box_sep_sem hfpbs ht1 hb hq hAq'
  have hr : (q.1 + d.1, q.2 + d.2) ∈ valid_positions g := by
    by_contra hrv
    obtain ⟨l, hl, hlt⟩ := satCNF_mem hfstay (mem_clausesStay htT hb hq)
    rw [List.mem_append] at hl
    rcases hl with hl | hl
    · rw [List.mem_cons, List.mem_singleton] at hl
      rcases hl with rfl | rfl
      · rw [litTrue_negv (var_box_pos b t hq), hAq] at hlt
        cases hlt
      · rw [litTrue_posv (var_box_pos b (t + 1) hq), hsep] at hlt
        cases hlt
    · obtain ⟨d', hd', hde⟩ := List.mem_filterMap.mp hl
      by_cases hc : ((valid_positions g).contains (q.1 - d'.1, q.2 - d'.2) &&
          (valid_positions g).contains (q.1 + d'.1, q.2 + d'.2)) = true
      · rw [if_pos hc] at hde
        injection hde with hde
        subst hde
        rw [Bool.and_eq_true] at hc
        have hqm : (q.1 - d'.1, q.2 - d'.2) ∈ valid_positions g := by simpa using hc.1
        have hqp2 : (q.1 + d'.1, q.2 + d'.2) ∈ valid_positions g := by simpa using hc.2
        rw [litTrue_posv (var_player_pos t hqm)] at hlt
        have hpeq : (q.1 - d'.1, q.2 - d'.2) = p := huniq _ hqm hlt
        have hdd : d' = d := by
          have h1 : q.1 = p.1 + d.1 := by rw [hqd]
          have h2 : q.2 = p.2 + d.2 := by rw [hqd]
          have h3 : q.1 - d'.1 = p.1 := by rw [← hpeq]
          have h4 : q.2 - d'.2 = p.2 := by rw [← hpeq]
          refine Prod.ext ?_ ?_ <;> omega
        rw [hdd] at hqp2
        exact hrv hqp2
      · rw [if_neg hc] at hde
        cases hde
  have hre : (q.1 + d.1, q.2 + d.2) = (p.1 + 2 * d.1, p.2 + 2 * d.2) := by
    have h1 : q.1 = p.1 + d.1 := by rw [hqd]
    have h2 : q.2 = p.2 + d.2 := by rw [hqd]
    refine Prod.ext ?_ ?_ <;> dsimp only <;> omega
  obtain ⟨_, hc2⟩ := mem_clausesPush2 htT hb hp hd hqd hre hq hr
  obtain ⟨l, hl, hlt⟩ := satCNF_mem hfpush hc2
  rw [List.mem_cons, List.mem_cons, List.mem_cons, List.mem_singleton] at hl
  rcases hl with rfl | rfl | rfl | rfl
  · rw [litTrue_negv (var_player_pos t hp), hAp] at hlt
    cases hlt
  · rw [litTrue_negv (var_box_pos b t hq), hAq] at hlt
    cases hlt
  · rw [litTrue_posv (var_box_pos b (t + 1) hq), hsep] at hlt
    cases hlt
  · rw [litTrue_posv (var_box_pos b (t + 1) hr)] at hlt
    exact ⟨hr, hlt⟩

end Q2

/-- `filterMap` of an everywhere-`some` function is a `map`. -/
theorem filterMap_congr_some {α β : Type} {f : α → Option β} {g' : α → β} {l : List α}
    (h : ∀ a ∈ l, f a = some (g' a)) : l.filterMap f = l.map g' := by
  induction l with
  | nil => rfl
  | cons a as ih =>
    rw [List.filterMap_cons, h a (List.mem_cons_self a as), List.map_cons,
      ih fun x hx => h x (List.mem_cons_of_mem a hx)]

theorem getD_map_range {α : Type} (f : Nat → α) {n t : Nat} (h : t < n) (d : α) :
    ((List.range n).map f).getD t d = f t := by
  rw [List.getD_eq_getElem?_getD, List.getElem?_map, List.getElem?_range h]
  rfl

namespace Q2

theorem init_player_sem {g : List (List Char)} {p0 : Int × Int} {A : Int → Bool}
    (hfi : satCNF A (clausesInit g p0) = true) (hp0 : p0 ∈ valid_positions g) :
    A (var_player p0.1 p0.2 0) = true :=
  sat_unit hfi mem_clausesInit_player (var_player_pos 0 hp0)

theorem boxesOf_getD_mem {g : List (List Char)} {b : Nat} (hb : b < num_boxes g) :
    (boxesOf g).getD b (0, 0) ∈ boxesOf g := by
  have hb' : b < (boxesOf g).length := hb
  rw [List.getD_eq_getElem?_getD, List.getElem?_eq_getElem hb']
  exact List.getElem_mem hb'

theorem init_box_sem {g : List (List Char)} {p0 : Int × Int} {A : Int → Bool} {b : Nat}
    (hfi : satCNF A (clausesInit g p0) = true) (hb : b < num_boxes g) :
    A (var_box b ((boxesOf g).getD b (0, 0)).1 ((boxesOf g).getD b (0, 0)).2 0) = true :=
  sat_unit hfi (mem_clausesInit_box hb)
    (var_box_pos b 0 (boxesOf_valid (boxesOf_getD_mem hb)))

theorem goal_sem {g : List (List Char)} {T : Nat} {A : Int → Bool}
    (hfg : satCNF A (clausesGoal g T) = true) {b : Nat} (hb : b < num_boxes g) :
    ∃ gl ∈ goalsOf g, A (var_box b gl.1 gl.2 T) = true := by
  obtain ⟨l, hl, hlt⟩ := satCNF_mem hfg (mem_clausesGoal hb)
  obtain ⟨gl, hgl, rfl⟩ := List.mem_map.mp hl
  exact ⟨gl, hgl, by rwa [litTrue_posv (var_box_pos b T (goalsOf_valid hgl))] at hlt⟩

theorem dirChar_stay (p : Int × Int) : dirChar p p = none := by
  rw [dirChar]
  rw [if_neg, if_neg, if_neg, if_neg] <;> simp <;> omega

/-- The decoder's delta mapping inverts the physics delta for unit moves. -/
theorem dirChar_delta {d : Int × Int} (hd : d ∈ DIRS) (p : Int × Int) :
    ∃ c, dirChar p (p.1 + d.1, p.2 + d.2) = some c ∧ moveDelta c = d := by
  rw [DIRS] at hd
  rw [List.mem_cons, List.mem_cons, List.mem_cons, List.mem_singleton] at hd
  rcases hd with rfl | rfl | rfl | rfl
  · refine ⟨'U', ?_, rfl⟩
    have h1 : ((p.1 + -1 : Int) == p.1 - 1) = true := by
      simp only [beq_iff_eq]
      omega
    rw [dirChar, if_pos h1]
  · refine ⟨'D', ?_, rfl⟩
    have h1 : ¬(((p.1 + 1 : Int) == p.1 - 1) = true) := by
      simp only [beq_iff_eq]
      omega
    have h2 : ((p.1 + 1 : Int) == p.1 + 1) = true := by
      simp only [beq_iff_eq]
    rw [dirChar, if_neg h1, if_pos h2]
  · refine ⟨'L', ?_, rfl⟩
    have h1 : ¬(((p.1 + 0 : Int) == p.1 - 1) = true) := by
      simp only [beq_iff_eq]
      omega
    have h2 : ¬(((p.1 + 0 : Int) == p.1 + 1) = true) := by
      simp only [beq_iff_eq]
      omega
    have h3 : ((p.2 + -1 : Int) == p.2 - 1) = true := by
      simp only [beq_iff_eq]
      omega
    rw [dirChar, if_neg h1, if_neg h2, if_pos h3]
  · refine ⟨'R', ?_, rfl⟩
    have h1 : ¬(((p.1 + 0 : Int) == p.1 - 1) = true) := by
      simp only [beq_iff_eq]
      omega
    have h2 : ¬(((p.1 + 0 : Int) == p.1 + 1) = true) := by
      simp only [beq_iff_eq]
      omega
    have h3 : ¬(((p.2 + 1 : Int) == p.2 - 1) = true) := by
      simp only [beq_iff_eq]
      omega
    have h4 : ((p.2 + 1 : Int) == p.2 + 1) = true := by
      simp only [beq_iff_eq]
    rw [dirChar, if_neg h1, if_neg h2, if_neg h3, if_pos h4]

/-- When every timestep's scan succeeds, `decode` returns the move list built
from the per-timestep player positions. -/
theorem decode_eq_movesUpTo {g : List (List Char)} {T : Nat} {A : Int → Bool}
    (hall : ∀ t ∈ List.range (T + 1), findPos A g t = some (playerAtT A g t)) :
    decode A g T = some (movesUpTo A g T) := by
  have hpos : positionsList A g T = (List.range (T + 1)).map (playerAtT A g) := by
    rw [positionsList]
    exact filterMap_congr_some hall
  rw [decode]
  simp only [hpos, List.length_map, List.length_range]
  rw [if_pos (Or.inr trivial)]
  congr 1
  rw [movesOf, movesUpTo]
  refine List.filterMap_congr ?_
  intro t ht
  rw [List.mem_range] at ht
  rw [getD_map_range _ (by omega), getD_map_range _ (by omega)]

end Q2

namespace Q2

/-- The replayed prefix of decoded moves reproduces the per-timestep player
and box positions extracted from the satisfying assignment. -/
theorem replay_movesUpTo {g : List (List Char)} {T : Nat} {A : Int → Bool} {p0 : Int × Int}
    (hps : player_start g = some p0)
    (hN : rowsN g ≤ 10) (hM : colsM g ≤ 10) (hT : T ≤ 98)
    (honly : OnlyAllocated A g T)
    (hfi : satCNF A (clausesInit g p0) = true)
    (hfpe : satCNF A (clausesPlayerExist g T) = true)
    (hfpa : satCNF A (clausesPlayerAMO g T) = true)
    (hfbe : satCNF A (clausesBoxExist g T) = true)
    (hfba : satCNF A (clausesBoxAMO g T) = true)
    (hfpbs : satCNF A (clausesPlayerBoxSep g T) = true)
    (hfmv : satCNF A (clausesMove g T) = true)
    (hfpush : satCNF A (clausesPush g T) = true)
    (hfstay : satCNF A (clausesStay g T) = true) :
    ∀ k, k ≤ T → replay (initState g) (movesUpTo A g k) =
      { player := playerAtT A g k,
        boxes := (List.range (num_boxes g)).map fun b => boxAtT A g b k } := by
  intro k
  induction k with
  | zero =>
    intro _
    have hm : movesUpTo A g 0 = [] := rfl
    rw [hm]
    have hp0v := player_start_valid hps
    have hA0 := init_player_sem hfi hp0v
    obtain ⟨_, _, _, huniq0⟩ := findPos_spec hN hM hT honly hfpe hfpa (Nat.zero_le T)
    have hP0 : p0 = playerAtT A g 0 := huniq0 p0 hp0v hA0
    have hboxes : (List.range (num_boxes g)).map (fun b => boxAtT A g b 0) = boxesOf g := by
      refine List.ext_getElem (by simp [num_boxes]) ?_
      intro i h1 h2
      have hi : i < num_boxes g := by simpa using h1
      rw [List.getElem_map, List.getElem_range]
      obtain ⟨_, _, huniqB⟩ := boxAt_spec hfbe hfba (Nat.zero_le T) hi
      have hAi := init_box_sem hfi hi
      have hval := boxesOf_valid (boxesOf_getD_mem hi)
      have he := huniqB _ hval hAi
      rw [← he, List.getD_eq_getElem?_getD, List.getElem?_eq_getElem hi]
      rfl
    show initState g = _
    rw [initState, hps, ← hP0, hboxes]
    rfl
  | succ k ih =>
    intro hk1
    have hkT : k ≤ T := by omega
    have hkltT : k < T := by omega
    obtain ⟨hfK, hvK, hAK, huK⟩ := findPos_spec hN hM hT honly hfpe hfpa hkT
    obtain ⟨hfK1, hvK1, hAK1, huK1⟩ := findPos_spec hN hM hT honly hfpe hfpa hk1
    have hsplit : movesUpTo A g (k + 1) = movesUpTo A g k ++
        (dirChar (playerAtT A g k) (playerAtT A g (k + 1))).toList := by
      rw [movesUpTo, movesUpTo, List.range_succ, List.filterMap_append]
      congr 1
    have ih' := ih hkT
    rw [replay] at ih'
    rw [hsplit, replay, List.foldl_append, ih']
    have hBfacts : ∀ b, b < num_boxes g →
        (boxAtT A g b k ∈ valid_positions g ∧
          A (var_box b (boxAtT A g b k).1 (boxAtT A g b k).2 k) = true) ∧
        (boxAtT A g b (k + 1) ∈ valid_positions g ∧
          ∀ q ∈ valid_positions g, A (var_box b q.1 q.2 (k + 1)) = true →
            q = boxAtT A g b (k + 1)) := by
      intro b hb
      obtain ⟨h1, h2, _⟩ := boxAt_spec hfbe hfba hkT hb
      obtain ⟨h4, _, h6⟩ := boxAt_spec hfbe hfba hk1 hb
      exact ⟨⟨h1, h2⟩, ⟨h4, h6⟩⟩
    rcases player_step hfmv hkltT hvK hAK huK1 with hcase | ⟨d, hd, hP1e, _⟩
    · have hboxes : ∀ b ∈ List.range (num_boxes g),
          boxAtT A g b k = boxAtT A g b (k + 1) := by
        intro b hbmem
        have hb := List.mem_range.mp hbmem
        obtain ⟨⟨hvB, hAB⟩, ⟨_, huB1⟩⟩ := hBfacts b hb
        have hneq : playerAtT A g (k + 1) ≠ boxAtT A g b k := by
          rw [hcase]
          intro hcon
          have hsep := player_box_sep_sem hfpbs hkT hb hvK hAK
          rw [← hcon] at hAB
          rw [hAB] at hsep
          cases hsep
        have hstay := box_stay hfstay hfpush hkltT hb hvB hAB huK huK1 hneq
        exact huB1 _ hvB hstay
      rw [hcase, dirChar_stay]
      show SokoState.mk (playerAtT A g k)
          ((List.range (num_boxes g)).map (fun b => boxAtT A g b k)) = _
      rw [List.map_congr_left hboxes]
    · obtain ⟨c, hdc, hmc⟩ := dirChar_delta hd (playerAtT A g k)
      have hmapeq : ∀ b ∈ List.range (num_boxes g),
          (if boxAtT A g b k =
              ((playerAtT A g k).1 + d.1, (playerAtT A g k).2 + d.2) then
            ((boxAtT A g b k).1 + d.1, (boxAtT A g b k).2 + d.2)
          else boxAtT A g b k) = boxAtT A g b (k + 1) := by
        intro b hbmem
        have hb := List.mem_range.mp hbmem
        obtain ⟨⟨hvB, hAB⟩, ⟨_, huB1⟩⟩ := hBfacts b hb
        by_cases hbp : boxAtT A g b k =
            ((playerAtT A g k).1 + d.1, (playerAtT A g k).2 + d.2)
        · rw [if_pos hbp]
          have hAq' : A (var_player (boxAtT A g b k).1 (boxAtT A g b k).2 (k + 1)) = true := by
            rw [show boxAtT A g b k = playerAtT A g (k + 1) from hbp.trans hP1e.symm]
            exact hAK1
          obtain ⟨hrval, hrtrue⟩ :=
            box_push hfpush hfstay hfpbs hkltT hb hvB hAB hvK hAK huK hd hbp hAq'
          exact huB1 _ hrval hrtrue
        · rw [if_neg hbp]
          have hneq : playerAtT A g (k + 1) ≠ boxAtT A g b k := by
            rw [hP1e]
            exact fun h => hbp h.symm
          have hstay := box_stay hfstay hfpush hkltT hb hvB hAB huK huK1 hneq
          exact huB1 _ hvB hstay
      rw [hP1e, hdc]
      show stepState (SokoState.mk (playerAtT A g k)
          ((List.range (num_boxes g)).map (fun b => boxAtT A g b k))) c = _
      simp only [stepState, hmc]
      congr 1
      rw [List.map_map]
      refine List.map_congr_left ?_
      intro b hbmem
      exact hmapeq b hbmem

end Q2

/-- The adversarial-but-satisfying assignment for `wallFirstGrid`: the honest
plan (player (0,1)→(0,2), box (0,2)→(0,3)) plus the unconstrained variable 1,
which is the player variable of the wall cell (0,0) at time 0. -/
def wallA : Int → Bool := fun v => v ∈ ([1, 101, 202, 10200, 10301] : List Int)

/-- C2 (counterexample): for the grid `# P B G` with T = 1, the assignment
`wallA` satisfies every clause of the encoding, yet the decoder scans wall
cells too, reads the spurious true wall variable as the player's position at
time 0, computes a non-adjacent delta, silently drops it, and returns the
empty plan — whose replay leaves the box at (0,2), not on the only goal
(0,3).  Hence the claim fails for an oracle free to set unconstrained
variables. -/
theorem c2_counterexample :
    Q2.encode wallFirstGrid 1 = some (Q2.encodeCnf wallFirstGrid 1 (0, 1)) ∧
    satCNF wallA (Q2.encodeCnf wallFirstGrid 1 (0, 1)) = true ∧
    Q2.decode wallA wallFirstGrid 1 = some [] ∧
    (Q2.replay (Q2.initState wallFirstGrid) []).boxes = [(0, 2)] ∧
    Q2.goalsOf wallFirstGrid = [(0, 3)] ∧
    ((0, 2) : Int × Int) ∉ Q2.goalsOf wallFirstGrid := by
  refine ⟨by decide, by decide, by decide, by decide, by decide, by decide⟩

/-- C2 (amended): for a rectangular grid with at most 10 rows, at most 10
columns and horizon at most 98 (so that digit-packed ids do not collide), and
for every satisfying assignment that sets only encoder-allocated variables
true, `decode` succeeds and replaying the returned move sequence (of length
at most T) from the parsed initial state under the push/stay physics ends
with every box on a goal cell. -/
theorem c2_amended (g : List (List Char)) (T : Nat) (A : Int → Bool) (p0 : Int × Int)
    (hrect : ∀ row ∈ g, row.length = Q2.colsM g)
    (hps : Q2.player_start g = some p0)
    (hN : Q2.rowsN g ≤ 10) (hM : Q2.colsM g ≤ 10) (hT : T ≤ 98)
    (honly : Q2.OnlyAllocated A g T)
    (hsat : satCNF A (Q2.encodeCnf g T p0) = true) :
    ∃ ms : List Char, Q2.decode A g T = some ms ∧ ms.length ≤ T ∧
      ∀ bp ∈ (Q2.replay (Q2.initState g) ms).boxes, bp ∈ Q2.goalsOf g := by
  obtain ⟨hfi, hfpe, hfpa, hfbe, hfba, hfpbs, hfbb, hfmv, hfpush, hfstay, hfg⟩ :=
    Q2.sat_families hsat
  refine ⟨Q2.movesUpTo A g T, ?_, ?_, ?_⟩
  · apply Q2.decode_eq_movesUpTo
    intro t ht
    rw [List.mem_range] at ht
    exact (Q2.findPos_spec hN hM hT honly hfpe hfpa (by omega)).1
  · rw [Q2.movesUpTo]
    have h1 := List.length_filterMap_le
      (fun t => Q2.dirChar (Q2.playerAtT A g t) (Q2.playerAtT A g (t + 1))) (List.range T)
    simpa using h1
  · intro bp hbp
    have hrep := Q2.replay_movesUpTo hps hN hM hT honly hfi hfpe hfpa hfbe hfba hfpbs
      hfmv hfpush hfstay T le_rfl
    rw [hrep] at hbp
    have hbp2 : bp ∈ (List.range (Q2.num_boxes g)).map fun b => Q2.boxAtT A g b T := hbp
    obtain ⟨b, hbmem, rfl⟩ := List.mem_map.mp hbp2
    have hb := List.mem_range.mp hbmem
    obtain ⟨gl, hgl, hAgl⟩ := Q2.goal_sem hfg hb
    obtain ⟨hvB, hAB, huB⟩ := Q2.boxAt_spec hfbe hfba le_rfl hb
    have hgb := huB gl (Q2.goalsOf_valid hgl) hAgl
    rw [← hgb]
    exact hgl

/-- C2 (witness): the amended statement at the `P B G` puzzle with the honest
model. -/
theorem c2_amended_witness :
    ∃ ms : List Char, Q2.decode pbgModelA pbg 1 = some ms ∧ ms.length ≤ 1 ∧
      ∀ bp ∈ (Q2.replay (Q2.initState pbg) ms).boxes, bp ∈ Q2.goalsOf pbg :=
  c2_amended pbg 1 pbgModelA (0, 0) (by decide) (by decide) (by decide) (by decide)
    (by decide)
    (by
      intro v hv
      have hv2 : v ∈ ([1, 10100, 102, 10201] : List Int) := by
        have := of_decide_eq_true hv
        exact this
      have h1 : v = 1 ∨ v = 10100 ∨ v = 102 ∨ v = 10201 := by
        simpa using hv2
      rcases h1 with rfl | rfl | rfl | rfl <;> decide)
    (by decide)

namespace Q1

theorem mem_oneTo {n x : Nat} : x ∈ oneTo n ↔ 1 ≤ x ∧ x ≤ n := by
  rw [oneTo]
  constructor
  · intro hx
    obtain ⟨k, hk, rfl⟩ := List.mem_map.mp hx
    rw [List.mem_range] at hk
    omega
  · intro ⟨h1, h2⟩
    exact List.mem_map.mpr ⟨x - 1, List.mem_range.mpr (by omega), by omega⟩

theorem var_pos {r c num : Nat} (hr : 1 ≤ r) (hc : 1 ≤ c) (hnum : 1 ≤ num) :
    0 < var r c num := by
  rw [var]
  have h1 : (1 : Int) ≤ (r : Int) := by exact_mod_cast hr
  have h2 : (1 : Int) ≤ (c : Int) := by exact_mod_cast hc
  have h3 : (1 : Int) ≤ (num : Int) := by exact_mod_cast hnum
  omega

theorem mem_rowClauses {n r num : Nat} (hr : r ∈ oneTo n) (hnum : num ∈ oneTo n) :
    ((oneTo n).map fun (col : Nat) => var r col num) ∈ rowClauses n := by
  rw [rowClauses]
  exact List.mem_flatMap.mpr ⟨r, hr, List.mem_map.mpr ⟨num, hnum, rfl⟩⟩

theorem mem_cellClauses {n r c num1 num2 : Nat} (hr : r ∈ oneTo n)
    (hc : c ∈ oneTo n) (hnn : (num1, num2) ∈ allPairs (oneTo n)) :
    [-(var r c num1), -(var r c num2)] ∈ cellClauses n := by
  rw [cellClauses]
  exact List.mem_flatMap.mpr ⟨r, hr,
    List.mem_flatMap.mpr ⟨c, hc, List.mem_map.mpr ⟨(num1, num2), hnn, rfl⟩⟩⟩

/-- The five clause families of `cnf1`. -/
theorem sat1_families {grid : List (List Int)} {A : Int → Bool}
    (hsat : satCNF A (cnf1 grid) = true) :
    satCNF A (rowClauses grid.length) = true ∧
    satCNF A (colClauses grid.length) = true ∧
    satCNF A (blockClauses grid.length) = true ∧
    satCNF A (cellClauses grid.length) = true ∧
    satCNF A (initClauses grid) = true := by
  rw [cnf1] at hsat
  simp only [satCNF_append, Bool.and_eq_true] at hsat
  tauto

/-- Semantic row at-least-one: each value appears in each row. -/
theorem row_alo_sem {n : Nat} {A : Int → Bool}
    (hf : satCNF A (rowClauses n) = true) {r num : Nat}
    (hr : r ∈ oneTo n) (hnum : num ∈ oneTo n) :
    ∃ col ∈ oneTo n, A (var r col num) = true := by
  obtain ⟨l, hl, hlt⟩ := satCNF_mem hf (mem_rowClauses hr hnum)
  obtain ⟨col, hcol, rfl⟩ := List.mem_map.mp hl
  refine ⟨col, hcol, ?_⟩
  rwa [litTrue_posv (var_pos (mem_oneTo.mp hr).1 (mem_oneTo.mp hcol).1
    (mem_oneTo.mp hnum).1)] at hlt

/-- Semantic cell at-most-one: a cell cannot hold two values. -/
theorem cell_amo_sem {n : Nat} {A : Int → Bool}
    (hf : satCNF A (cellClauses n) = true) {r c num1 num2 : Nat}
    (hr : r ∈ oneTo n) (hc : c ∈ oneTo n) (h1 : num1 ∈ oneTo n) (h2 : num2 ∈ oneTo n)
    (hne : num1 ≠ num2) (hA1 : A (var r c num1) = true)
    (hA2 : A (var r c num2) = true) : False := by
  have hrb := mem_oneTo.mp hr
  have hcb := mem_oneTo.mp hc
  have h1b := mem_oneTo.mp h1
  have h2b := mem_oneTo.mp h2
  rcases mem_allPairs (oneTo n) num1 num2 h1 h2 hne with h | h
  · rcases sat_neg_pair hf (mem_cellClauses hr hc h)
        (var_pos hrb.1 hcb.1 h1b.1) (var_pos hrb.1 hcb.1 h2b.1) with h' | h'
    · rw [hA1] at h'
      cases h'
    · rw [hA2] at h'
      cases h'
  · rcases sat_neg_pair hf (mem_cellClauses hr hc h)
        (var_pos hrb.1 hcb.1 h2b.1) (var_pos hrb.1 hcb.1 h1b.1) with h' | h'
    · rw [hA2] at h'
      cases h'
    · rw [hA1] at h'
      cases h'

end Q1

theorem getD_set_eq {α : Type} {l : List α} {i : Nat} {v d : α} (h : i < l.length) :
    (l.set i v).getD i d = v := by
  rw [List.getD_eq_getElem?_getD, List.getElem?_set]
  simp [h]

theorem getD_set_ne {α : Type} {l : List α} {i k : Nat} {v d : α} (h : i ≠ k) :
    (l.set i v).getD k d = l.getD k d := by
  rw [List.getD_eq_getElem?_getD, List.getD_eq_getElem?_getD, List.getElem?_set]
  simp [h]

namespace Q1

/-- Shape invariant of the answer matrix: n rows of length n. -/
def Shape (n : Nat) (ans : List (List Int)) : Prop :=
  ans.length = n ∧ ∀ k, k < n → (ans.getD k []).length = n

theorem shape_replicate (n : Nat) : Shape n (List.replicate n (List.replicate n 0)) := by
  constructor
  · simp
  · intro k hk
    rw [List.getD_eq_getElem?_getD, List.getElem?_eq_getElem (by simpa using hk)]
    simp

theorem shape_setCell {n : Nat} {ans : List (List Int)} {i j : Nat} {v : Int}
    (hsh : Shape n ans) (hi : i < n) : Shape n (setCell ans i j v) := by
  obtain ⟨h1, h2⟩ := hsh
  constructor
  · rw [setCell, List.length_set, h1]
  · intro k hk
    rw [setCell]
    by_cases hik : i = k
    · subst hik
      rw [getD_set_eq (by omega), List.length_set]
      exact h2 i hi
    · rw [getD_set_ne hik]
      exact h2 k hk

theorem cellVal_setCell_eq {n : Nat} {ans : List (List Int)} {i j : Nat} {v : Int}
    (hsh : Shape n ans) (hi : i < n) (hj : j < n) :
    cellVal (setCell ans i j v) i j = v := by
  obtain ⟨h1, h2⟩ := hsh
  rw [cellVal, setCell, getD_set_eq (by omega)]
  exact getD_set_eq (by rw [h2 i hi]; omega)

theorem cellVal_setCell_ne {ans : List (List Int)} {i j i' j' : Nat} {v : Int}
    (hne : ¬(i' = i ∧ j' = j)) :
    cellVal (setCell ans i' j' v) i j = cellVal ans i j := by
  rw [cellVal, cellVal, setCell]
  by_cases hii : i' = i
  · subst hii
    have hjj : j' ≠ j := fun h => hne ⟨rfl, h⟩
    by_cases hlen : i' < ans.length
    · rw [getD_set_eq hlen, getD_set_ne hjj]
    · rw [List.set_eq_of_length_le (by omega)]
  · rw [getD_set_ne hii]

theorem applyValue_shape {n : Nat} {ans : List (List Int)} {v : Int}
    (hsh : Shape n ans) : Shape n (applyValue n ans v) := by
  simp only [applyValue]
  split
  · split
    · next hguard =>
      apply shape_setCell hsh
      omega
    · exact hsh
  · exact hsh

/-- One model value either leaves a cell alone or writes an in-range value. -/
theorem applyValue_cell {n : Nat} {ans : List (List Int)} {v : Int} {i j : Nat}
    (hsh : Shape n ans) (hi : i < n) (hj : j < n) :
    cellVal (applyValue n ans v) i j = cellVal ans i j ∨
    (1 ≤ cellVal (applyValue n ans v) i j ∧ cellVal (applyValue n ans v) i j ≤ (n : Int)) := by
  simp only [applyValue]
  split
  · split
    · next hguard =>
      by_cases htarget : (v / 100 - 1).toNat = i ∧ (v / 10 % 10 - 1).toNat = j
      · right
        rw [htarget.1, htarget.2] at *
        rw [cellVal_setCell_eq hsh hi hj]
        omega
      · left
        exact cellVal_setCell_ne htarget
    · left
      rfl
  · left
    rfl

/-- The write triggered by the allocated variable of cell (i, j) holding
value `num` (single-digit regime). -/
theorem applyValue_write {n : Nat} {ans : List (List Int)} {i j num : Nat}
    (hsh : Shape n ans) (hn9 : n ≤ 9) (hi : i < n) (hj : j < n)
    (h1 : 1 ≤ num) (h2 : num ≤ n) :
    cellVal (applyValue n ans (var (i + 1) (j + 1) num)) i j = num := by
  have hv : (0 : Int) < var ((i : Int) + 1) ((j : Int) + 1) (num : Int) := by
    rw [var]
    omega
  have hd : var ((i : Int) + 1) ((j : Int) + 1) (num : Int) =
      100 * ((i : Int) + 1) + 10 * ((j : Int) + 1) + (num : Int) := rfl
  simp only [applyValue]
  rw [if_pos hv]
  rw [if_pos]
  · have hrow : (var ((i : Int) + 1) ((j : Int) + 1) (num : Int) / 100 - 1).toNat = i := by
      rw [hd]
      omega
    have hcol : (var ((i : Int) + 1) ((j : Int) + 1) (num : Int) / 10 % 10 - 1).toNat = j := by
      rw [hd]
      omega
    have hnum : var ((i : Int) + 1) ((j : Int) + 1) (num : Int) % 10 = (num : Int) := by
      rw [hd]
      omega
    rw [hrow, hcol, hnum]
    exact cellVal_setCell_eq hsh hi hj
  · rw [hd]
    refine ⟨by omega, by omega, by omega, by omega, by omega, by omega⟩

theorem extract_fold_preserve {n i j : Nat} (hi : i < n) (hj : j < n) :
    ∀ (m : List Int) (ans : List (List Int)), Shape n ans →
      1 ≤ cellVal ans i j → cellVal ans i j ≤ (n : Int) →
      1 ≤ cellVal (m.foldl (applyValue n) ans) i j ∧
        cellVal (m.foldl (applyValue n) ans) i j ≤ (n : Int) := by
  intro m
  induction m with
  | nil => exact fun ans _ hl hu => ⟨hl, hu⟩
  | cons v vs ih =>
    intro ans hsh hl hu
    rw [List.foldl_cons]
    rcases applyValue_cell hsh hi hj (v := v) with hsame | ⟨hl2, hu2⟩
    · exact ih _ (applyValue_shape hsh) (by rwa [hsame]) (by rwa [hsame])
    · exact ih _ (applyValue_shape hsh) hl2 hu2

theorem extract_fold_write {n i j num : Nat} (hn9 : n ≤ 9) (hi : i < n) (hj : j < n)
    (h1 : 1 ≤ num) (h2 : num ≤ n) :
    ∀ (m : List Int) (ans : List (List Int)), Shape n ans →
      var (i + 1) (j + 1) num ∈ m →
      1 ≤ cellVal (m.foldl (applyValue n) ans) i j ∧
        cellVal (m.foldl (applyValue n) ans) i j ≤ (n : Int) := by
  intro m
  induction m with
  | nil => intro ans _ hmem; cases hmem
  | cons v vs ih =>
    intro ans hsh hmem
    rw [List.foldl_cons]
    rcases List.mem_cons.mp hmem with heq | hmem2
    · rw [← heq]
      refine extract_fold_preserve hi hj vs _ (applyValue_shape hsh) ?_ ?_
      · rw [applyValue_write hsh hn9 hi hj h1 h2]
        exact_mod_cast h1
      · rw [applyValue_write hsh hn9 hi hj h1 h2]
        exact_mod_cast h2
    · exact ih _ (applyValue_shape hsh) hmem2

/-- The first column at which the assignment puts value `num` in row `r`. -/
def colWitness (A : Int → Bool) (n r num : Nat) : Nat :=
  ((oneTo n).find? fun (col : Nat) => A (var r col num)).getD 0

theorem colWitness_spec {A : Int → Bool} {n r num : Nat}
    (hex : ∃ col ∈ oneTo n, A (var r col num) = true) :
    colWitness A n r num ∈ oneTo n ∧ A (var r (colWitness A n r num) num) = true := by
  obtain ⟨c0, hc0, hA0⟩ := hex
  have hsome : ((oneTo n).find? fun (col : Nat) => A (var r col num)).isSome := by
    rw [List.find?_isSome]
    exact ⟨c0, hc0, hA0⟩
  rcases Option.isSome_iff_exists.mp hsome with ⟨c1, hc1⟩
  rw [colWitness, hc1, Option.getD_some]
  refine ⟨List.mem_of_find?_eq_some hc1, ?_⟩
  have hfound := List.find?_some hc1
  simpa using hfound

/-- Pigeonhole filling in the single-digit regime: for a square grid of side
at most 9 and any oracle that returns a genuinely satisfying model of `cnf1`,
every cell of the matrix returned by `solve_sudoku` holds a value in `[1, n]`.
The row at-least-one clauses give each of the `n` values a column witness in
the row, the cell at-most-one clauses make the witness map injective, hence
surjective onto the row's columns, so every cell receives a write from the
model with a value in `[1, n]`; with `n ≤ 9` the digit decoding of that write
is exact. -/
theorem extract_filled_of_le_nine {grid : List (List Int)} {n : Nat}
    (oracle : List (List Int) → Option (List Int)) {model : List Int}
    (hlen : grid.length = n) (hn9 : n ≤ 9)
    (horacle : oracle (cnf1 grid) = some model)
    (hsat : satCNF (fun v => decide (v ∈ model)) (cnf1 grid) = true)
    {i j : Nat} (hi : i < n) (hj : j < n) :
    1 ≤ cellVal (solve_sudoku grid oracle) i j ∧
      cellVal (solve_sudoku grid oracle) i j ≤ (n : Int) := by
  obtain ⟨hrow, -, -, hcell, -⟩ := sat1_families hsat
  rw [hlen] at hrow hcell
  have key : ∀ num, 1 ≤ num → num ≤ n →
      colWitness (fun v => decide (v ∈ model)) n (i + 1) num ∈ oneTo n ∧
        decide (var ((i + 1 : Nat))
          ((colWitness (fun v => decide (v ∈ model)) n (i + 1) num : Nat))
          ((num : Nat)) ∈ model) = true := by
    intro num h1 h2
    exact colWitness_spec (row_alo_sem hrow (mem_oneTo.mpr ⟨by omega, by omega⟩)
      (mem_oneTo.mpr ⟨h1, h2⟩))
  have hmaps : ∀ num ∈ Finset.Icc 1 n,
      colWitness (fun v => decide (v ∈ model)) n (i + 1) num ∈ Finset.Icc 1 n := by
    intro num hnum
    rw [Finset.mem_Icc] at hnum
    rw [Finset.mem_Icc, ← mem_oneTo]
    exact (key num hnum.1 hnum.2).1
  have hinj : Set.InjOn (fun num => colWitness (fun v => decide (v ∈ model)) n (i + 1) num)
      (Finset.Icc 1 n) := by
    intro a ha b hb hab
    simp only [Finset.coe_Icc, Set.mem_Icc] at ha hb
    by_contra hne
    have hka := key a ha.1 ha.2
    have hkb := key b hb.1 hb.2
    have hab2 : colWitness (fun v => decide (v ∈ model)) n (i + 1) a =
        colWitness (fun v => decide (v ∈ model)) n (i + 1) b := hab
    rw [hab2] at hka
    refine cell_amo_sem hcell ?_ hkb.1 ?_ ?_ hne hka.2 hkb.2
    · exact mem_oneTo.mpr ⟨by omega, by omega⟩
    · exact mem_oneTo.mpr ⟨ha.1, ha.2⟩
    · exact mem_oneTo.mpr ⟨hb.1, hb.2⟩
  have himg : Finset.image (fun num => colWitness (fun v => decide (v ∈ model)) n (i + 1) num)
      (Finset.Icc 1 n) = Finset.Icc 1 n := by
    apply Finset.eq_of_subset_of_card_le
    · intro x hx
      obtain ⟨a, ha, rfl⟩ := Finset.mem_image.mp hx
      exact hmaps a ha
    · rw [Finset.card_image_of_injOn hinj]
  have hjmem : (j + 1) ∈ Finset.Icc 1 n := Finset.mem_Icc.mpr ⟨by omega, by omega⟩
  rw [← himg] at hjmem
  obtain ⟨num, hnum, hgnum⟩ := Finset.mem_image.mp hjmem
  rw [Finset.mem_Icc] at hnum
  have hgnum2 : colWitness (fun v => decide (v ∈ model)) n (i + 1) num = j + 1 := hgnum
  have hmem : var (i + 1) (j + 1) num ∈ model := by
    have h2 := (key num hnum.1 hnum.2).2
    rw [hgnum2] at h2
    exact_mod_cast of_decide_eq_true h2
  have hbounds := extract_fold_write hn9 hi hj hnum.1 hnum.2 model
    (List.replicate n (List.replicate n 0)) (shape_replicate n) hmem
  unfold solve_sudoku
  rw [horacle, hlen]
  exact hbounds

end Q1
